import Mathlib

/-!
Verification development for the TSP-DRL repository (src/env.py, src/actor.py).

Floating-point tensors are modelled by real numbers; a tensor of shape
(batch, city_t, 2) becomes a `List (List (ℝ × ℝ))`, a batch of tours becomes a
`List (List ℕ)`.  Python exceptions (IndexError from out-of-range batch
indexing, ValueError from `min()` over an empty sequence, RuntimeError from
`torch.stack([])`) are modelled by `Option`: `none` means the call raises.
Lookups along the city dimension use `getD`; all claims only exercise
well-formed rows (length `city_t`), matching the tensor layout in the source,
whereas the batch dimension is looked up with `get?` because batch-size
mismatches are exactly what claim C10 is about.
-/

set_option maxHeartbeats 1000000

namespace TSPSpec

/-- Points of the plane: one row of a `(…, 2)`-shaped coordinate tensor. -/
abbrev Pt : Type := ℝ × ℝ

/-- Default point used for (never-exercised) out-of-range `getD` lookups. -/
def pt0 : Pt := ((0 : ℝ), (0 : ℝ))

/-- Embedding of `get_2city_distance` (src/env.py:11-20):
`sqrt((x2-x1)^2 + (y2-y1)^2)`. -/
noncomputable def get_2city_distance (p q : Pt) : ℝ :=
  Real.sqrt ((q.1 - p.1) ^ 2 + (q.2 - p.2) ^ 2)

/-- Embedding of `Env_tsp.get_tour_distance` (src/env.py:146-157):
`l = Σ_{i < city_t} dist(nodes[tour[i]], nodes[tour[(i+1) % city_t]])`. -/
noncomputable def get_tour_distance (cityT : ℕ) (nodes : List Pt) (tour : List ℕ) : ℝ :=
  ∑ i ∈ Finset.range cityT,
    get_2city_distance (nodes.getD (tour.getD i 0) pt0)
      (nodes.getD (tour.getD ((i + 1) % cityT) 0) pt0)

/-- Option-valued map used to embed Python loops whose body can raise. -/
def mapMOpt (f : β → Option α) : List β → Option (List α)
  | [] => some []
  | b :: bs =>
    match f b, mapMOpt f bs with
    | some a, some r => some (a :: r)
    | _, _ => none

/-- `torch.stack(list, dim=0)` on a Python list of already-computed rows:
raises a RuntimeError on an empty list (`none`), otherwise stacks the rows. -/
def torchStack (rows : List α) : Option (List α) :=
  if rows.isEmpty then none else some rows

/-- Embedding of `Env_tsp.stack_l` (src/env.py:68-76): iterates `i` over
`range(self.batch)` (NOT over the input's own batch dimension) and indexes
`inputs[i]`, `tours[i]`; an out-of-range `i` raises IndexError (`none`), and
the final `torch.stack(list, dim=0)` raises on an empty list (`none` when
`self.batch = 0`). -/
noncomputable def stack_l (batch cityT : ℕ) (inputs : List (List Pt))
    (tours : List (List ℕ)) : Option (List ℝ) :=
  (mapMOpt
    (fun i =>
      match inputs.get? i, tours.get? i with
      | some nd, some tr => some (get_tour_distance cityT nd tr)
      | _, _ => none)
    (List.range batch)).bind torchStack

/-- Sum of `‖d[i+1] - d[i]‖` over consecutive gathered coordinates:
the `(d[:, 1:] - d[:, :-1]).norm(p=2, dim=2)` sum in `stack_l_fast`. -/
noncomputable def consecSum : List Pt → ℝ
  | [] => 0
  | [_] => 0
  | a :: b :: l => get_2city_distance a b + consecSum (b :: l)

/-- Per-instance value computed by `stack_l_fast`: gather the coordinates in
tour order (`d`), sum consecutive distances, and add the wrap-around term
`(d[:, 0] - d[:, -1]).norm(p=2, dim=1)`. -/
noncomputable def fastLen (nodes : List Pt) (tour : List ℕ) : ℝ :=
  let d := tour.map fun t => nodes.getD t pt0
  consecSum d + get_2city_distance (d.getLastD pt0) (d.headD pt0)

/-- Embedding of `Env_tsp.stack_l_fast` (src/env.py:78-91): vectorized over the
input's own batch dimension.  `torch.gather` requires the batch dimensions of
`inputs` and `tours` to agree, otherwise it raises (`none`). -/
noncomputable def stack_l_fast (inputs : List (List Pt)) (tours : List (List ℕ)) :
    Option (List ℝ) :=
  if inputs.length = tours.length then some (List.zipWith fastLen inputs tours) else none

/-- Scan of the inner `for k in range(self.city_t)` loop of
`Env_tsp.back_tours` (src/env.py:137-142): first index `k` of `testRow` whose
coordinates are exactly equal to `xy` (the row has length `city_t`). -/
noncomputable def firstMatchAux (xy : Pt) : List Pt → ℕ → Option ℕ
  | [], _ => none
  | a :: l, k => if a = xy then some k else firstMatchAux xy l (k + 1)

/-- One instance of the `back_tours` double loop (src/env.py:134-142): for each
`j < city_t` look up the coordinates of shuffled city `tour[j]` and append the
first exactly-matching canonical index, silently skipping positions with no
match (the source appends nothing in that case). -/
noncomputable def back_tour_one (cityT : ℕ) (shufRow testRow : List Pt)
    (tour : List ℕ) : List ℕ :=
  (List.range cityT).filterMap fun j =>
    firstMatchAux (shufRow.getD (tour.getD j 0) pt0) testRow 0

/-- Embedding of `Env_tsp.back_tours` (src/env.py:119-144): iterates `i` over
`range(self.batch)` (IndexError = `none` on a short batch), keeps an instance
only when its `pred_tour` reached length `city_t` (the `len(pred_tour) ==
self.city_t` check sits inside the `j` loop, so it can only fire for
`city_t > 0`), and finally `torch.stack` raises on an empty list (`none`). -/
noncomputable def back_tours (batch cityT : ℕ) (predShuffleTours : List (List ℕ))
    (shuffleInputs testInputs : List (List Pt)) : Option (List (List ℕ)) :=
  match mapMOpt
      (fun i =>
        match predShuffleTours.get? i, shuffleInputs.get? i, testInputs.get? i with
        | some tr, some sh, some te => some (back_tour_one cityT sh te tr)
        | _, _, _ => none)
      (List.range batch) with
  | none => none
  | some rows =>
    let kept := rows.filter fun pt => decide (0 < cityT ∧ pt.length = cityT)
    if kept.isEmpty then none else some kept

/-- Python's lexicographic `<` on lists of integers (used by `min` on the
`(distance, [visit sequence])` tuples of `get_optimal_tour` to break distance
ties). -/
def listLtB : List ℕ → List ℕ → Bool
  | [], [] => false
  | [], _ :: _ => true
  | _ :: _, [] => false
  | a :: as, b :: bs => if a < b then true else if b < a then false else listLtB as bs

/-- Python's `min` of two `(distance, path)` tuples: replace the accumulator
only when the candidate is strictly smaller in the lexicographic tuple order
(`min` keeps the first minimum). -/
noncomputable def tmin (a b : ℝ × List ℕ) : ℝ × List ℕ :=
  if b.1 < a.1 then b else if a.1 < b.1 then a else if listLtB b.2 a.2 then b else a

/-- Value/path table of the Held-Karp recursion in `Env_tsp.get_optimal_tour`
(src/env.py:179-198), indexed by fuel = `S.card`.  State `(j, S)` holds the
best `(distance, [visit sequence])` of a path that starts at `j`, visits all
of `S`, and returns to node `0`:
base dict `A[(idx, ∅)] = (dist(idx, 0), [idx])`, recurrence
`B[(j, R)] = min over k ∈ R of (dist(j,k) + A[(k, R-{k})][0], [j] + A[(k, R-{k})][1])`.
The source builds the layers bottom-up in a dict; this is the same recurrence
top-down.  The `[]` branch of the match is never reached when the fuel equals
`S.card`. -/
noncomputable def dpEntryAux (d : ℕ → ℕ → ℝ) : ℕ → ℕ → Finset ℕ → ℝ × List ℕ
  | 0, j, _ => (d j 0, [j])
  | m + 1, j, S =>
    match (S.sort (· ≤ ·)).map (fun k =>
        ((d j k + (dpEntryAux d m k (S.erase k)).1,
          j :: (dpEntryAux d m k (S.erase k)).2) : ℝ × List ℕ)) with
    | [] => (d j 0, [j])
    | c :: cs => List.foldl tmin c cs

/-- Table entry of the Held-Karp dict at state `(j, S)`. -/
noncomputable def dpEntry (d : ℕ → ℕ → ℝ) (j : ℕ) (S : Finset ℕ) : ℝ × List ℕ :=
  dpEntryAux d S.card j S

/-- The node set `{1, …, n-1}` (`range(1, cnt)` in the source). -/
def S0 (n : ℕ) : Finset ℕ := (Finset.range n).erase 0

/-- Embedding of the final reduction of `Env_tsp.get_optimal_tour`
(src/env.py:199-204): `res = min((dist(0, j) + A[(j, …)][0], [0] + A[(j, …)][1])
for (j, _) in A.items())`.  After the subset loop, `A` holds exactly the states
`(j, {1,…,n-1} \ {j})` for `j ∈ {1,…,n-1}`; for `n < 2` the dict is empty and
`min` raises ValueError (`none`). -/
noncomputable def heldKarp (d : ℕ → ℕ → ℝ) (n : ℕ) : Option (ℝ × List ℕ) :=
  match ((S0 n).sort (· ≤ ·)).map (fun j =>
      ((d 0 j + (dpEntry d j ((S0 n).erase j)).1,
        0 :: (dpEntry d j ((S0 n).erase j)).2) : ℝ × List ℕ)) with
  | [] => none
  | c :: cs => some (List.foldl tmin c cs)

/-- Distance matrix `all_distances` of `get_optimal_tour` (src/env.py:175-177),
as a function of node indices. -/
noncomputable def nodeDist (nodes : List Pt) (i j : ℕ) : ℝ :=
  get_2city_distance (nodes.getD i pt0) (nodes.getD j pt0)

/-- Embedding of `Env_tsp.get_optimal_tour` (src/env.py:171-204): builds the
distance matrix from the node coordinates, runs the subset DP, and returns the
tour `res[1]`. -/
noncomputable def get_optimal_tour (nodes : List Pt) : Option (List ℕ) :=
  (heldKarp (nodeDist nodes) nodes.length).map Prod.snd

/-- Cyclic-return path cost used by the DP proofs: cost of the walk
`prev → x₁ → … → x_k → start` under distance `d`. -/
noncomputable def tourAux (d : ℕ → ℕ → ℝ) (start : ℕ) : ℕ → List ℕ → ℝ
  | prev, [] => d prev start
  | prev, x :: xs => d prev x + tourAux d start x xs

/-- Cyclic length of a tour given an abstract distance function: structural
form of `get_tour_distance` (consecutive legs plus the closing leg back to the
head). -/
noncomputable def tourLen (d : ℕ → ℕ → ℝ) : List ℕ → ℝ
  | [] => 0
  | a :: l => tourAux d a a l

/-- Minimum of the reference tour evaluator (`get_tour_distance`) over all
permutations of `[0, city_t)`. -/
noncomputable def minTourLen (cityT : ℕ) (nodes : List Pt) : ℝ :=
  ((List.range cityT).permutations.map (get_tour_distance cityT nodes)).foldr min
    (get_tour_distance cityT nodes (List.range cityT))

/-- The 4-city test instance of src/env.py's `__main__` block (line 210):
`[(0,0), (1,0), (4,0), (0,-3)]`. -/
noncomputable def tspNodes4 : List Pt :=
  [((0 : ℝ), (0 : ℝ)), ((1 : ℝ), (0 : ℝ)), ((4 : ℝ), (0 : ℝ)), ((0 : ℝ), (-3 : ℝ))]

/-! Embedding of src/actor.py.

Vectors are functions `Fin k → ℝ`.  An `nn.LSTM` with one layer is modelled by
its cell equations in PyTorch gate order (i, f, g, o), with one weight matrix
per gate for the input and hidden contributions and one combined bias per gate
(representing PyTorch's `b_ih + b_hh`).  The decoder processes one instance at
a time; in the source all batch elements evolve independently (every tensor
operation in `PtrNet1.forward` acts row-wise).  `Vec`/`Vec2` are declared in
the source with `cfg.embed` entries but multiplied against hidden-sized
activations, which requires `embed = hidden` at run time; here they carry the
hidden dimension.  `torch.multinomial(p, 1)` is modelled as the inverse-CDF
sampler applied to an explicit uniform variate consumed from a stream. -/

/-- Logistic sigmoid used by the LSTM gates. -/
noncomputable def sigmoidR (x : ℝ) : ℝ := 1 / (1 + Real.exp (-x))

/-- Matrix-vector product. -/
noncomputable def mulVec {a b : ℕ} (W : Fin a → Fin b → ℝ) (v : Fin b → ℝ) :
    Fin a → ℝ :=
  fun i => ∑ j, W i j * v j

/-- Parameters of one LSTM cell (`nn.LSTM`, single layer), gates in PyTorch
order i, f, g, o. -/
structure LSTMCellP (ein hid : ℕ) where
  wi : Fin hid → Fin ein → ℝ
  wf : Fin hid → Fin ein → ℝ
  wg : Fin hid → Fin ein → ℝ
  wo : Fin hid → Fin ein → ℝ
  ui : Fin hid → Fin hid → ℝ
  uf : Fin hid → Fin hid → ℝ
  ug : Fin hid → Fin hid → ℝ
  uo : Fin hid → Fin hid → ℝ
  bi : Fin hid → ℝ
  bf : Fin hid → ℝ
  bg : Fin hid → ℝ
  bo : Fin hid → ℝ

/-- One LSTM time step. -/
noncomputable def lstmCell {ein hid : ℕ} (p : LSTMCellP ein hid) (x : Fin ein → ℝ)
    (h c : Fin hid → ℝ) : (Fin hid → ℝ) × (Fin hid → ℝ) :=
  let i := fun k => sigmoidR (mulVec p.wi x k + mulVec p.ui h k + p.bi k)
  let f := fun k => sigmoidR (mulVec p.wf x k + mulVec p.uf h k + p.bf k)
  let g := fun k => Real.tanh (mulVec p.wg x k + mulVec p.ug h k + p.bg k)
  let o := fun k => sigmoidR (mulVec p.wo x k + mulVec p.uo h k + p.bo k)
  let c2 := fun k => f k * c k + i k * g k
  (fun k => o k * Real.tanh (c2 k), c2)

/-- Run an LSTM over an input sequence from initial state `(h, c)`, returning
the per-step hidden states and the final `(h, c)` (the `enc_h, (h, c)` output
of the encoder at src/actor.py:76). -/
noncomputable def runLSTM {ein hid : ℕ} (p : LSTMCellP ein hid) :
    List (Fin ein → ℝ) → (Fin hid → ℝ) → (Fin hid → ℝ) →
      List (Fin hid → ℝ) × ((Fin hid → ℝ) × (Fin hid → ℝ))
  | [], h, c => ([], (h, c))
  | x :: xs, h, c =>
    let hc := lstmCell p x h c
    let r := runLSTM p xs hc.1 hc.2
    (hc.1 :: r.1, r.2)

/-- Parameters of `PtrNet1` (src/actor.py:27-54). -/
structure PtrP (ein hid : ℕ) where
  emb : Fin ein → Fin 2 → ℝ
  enc : LSTMCellP ein hid
  dec : LSTMCellP ein hid
  vec : Fin hid → ℝ
  vec2 : Fin hid → ℝ
  wq : Fin hid → Fin hid → ℝ
  bq : Fin hid → ℝ
  wref : Fin hid → Fin hid → ℝ
  bref : Fin hid → ℝ
  wq2 : Fin hid → Fin hid → ℝ
  bq2 : Fin hid → ℝ
  wref2 : Fin hid → Fin hid → ℝ
  bref2 : Fin hid → ℝ
  decInput0 : Fin ein → ℝ
  clip : ℝ
  softT : ℝ
  nGlimpse : ℕ

/-- The mask penalty constant `inf = 1e8` (default argument of `glimpse` and
`pointer`, src/actor.py:113 and 145). -/
noncomputable def infC : ℝ := 1e8

/-- Softmax over the city axis. -/
noncomputable def softmaxF {N : ℕ} (v : Fin N → ℝ) : Fin N → ℝ :=
  fun i => Real.exp (v i) / ∑ j, Real.exp (v j)

/-- `torch.log_softmax` over the city axis. -/
noncomputable def logSoftmax {N : ℕ} (v : Fin N → ℝ) : Fin N → ℝ :=
  fun i => v i - Real.log (∑ j, Real.exp (v j))

/-- Embedding of `PtrNet1.glimpse` (src/actor.py:108-138): attention logits
`V · tanh(u1 + u2)` minus `inf * mask`, tempered softmax, and the weighted sum
of the projected memory vectors. -/
noncomputable def glimpse {ein hid N : ℕ} (p : PtrP ein hid)
    (ref : Fin N → Fin hid → ℝ) (q : Fin hid → ℝ) (mask : Fin N → ℝ) :
    Fin hid → ℝ :=
  let u1 : Fin hid → ℝ := fun k => mulVec p.wq q k + p.bq k
  let u2 : Fin N → Fin hid → ℝ := fun city k => mulVec p.wref (ref city) k + p.bref k
  let u : Fin N → ℝ := fun city =>
    (∑ k, p.vec k * Real.tanh (u1 k + u2 city k)) - infC * mask city
  let a := softmaxF fun city => u city / p.softT
  fun k => ∑ city, u2 city k * a city

/-- Embedding of `PtrNet1.pointer` (src/actor.py:140-163):
`u = V2 · (clip_logits * tanh(u1 + u2)) - inf * mask`.  Note that in the
source the clip constant multiplies the *output* of the tanh
(`self.clip_logits * torch.tanh(u1 + u2)` at line 160). -/
noncomputable def pointer {ein hid N : ℕ} (p : PtrP ein hid)
    (ref : Fin N → Fin hid → ℝ) (q : Fin hid → ℝ) (mask : Fin N → ℝ) :
    Fin N → ℝ :=
  let u1 : Fin hid → ℝ := fun k => mulVec p.wq2 q k + p.bq2 k
  let u2 : Fin N → Fin hid → ℝ := fun city k => mulVec p.wref2 (ref city) k + p.bref2 k
  fun city =>
    (∑ k, p.vec2 k * (p.clip * Real.tanh (u1 k + u2 city k))) - infC * mask city

/-- Modelled from the spec: the pointer logits as described by the sentence
"scale the pre-activation sum by a configured clip constant before the tanh",
i.e. `V2 · tanh(clip * (u1 + u2)) - inf * mask`.  This comparison definition
for claim C4 deliberately follows the spec's words, not the source. -/
noncomputable def pointerSpecClipInside {ein hid N : ℕ} (p : PtrP ein hid)
    (ref : Fin N → Fin hid → ℝ) (q : Fin hid → ℝ) (mask : Fin N → ℝ) :
    Fin N → ℝ :=
  let u1 : Fin hid → ℝ := fun k => mulVec p.wq2 q k + p.bq2 k
  let u2 : Fin N → Fin hid → ℝ := fun city k => mulVec p.wref2 (ref city) k + p.bref2 k
  fun city =>
    (∑ k, p.vec2 k * Real.tanh (p.clip * (u1 k + u2 city k))) - infC * mask city

/-- The two city-selection policies of src/actor.py:10-23. -/
inductive DecodePolicy : Type
  | greedy : DecodePolicy
  | sampling : DecodePolicy

open Classical in
/-- Embedding of `Greedy.forward` (src/actor.py:14-15): `torch.argmax`, which
returns the smallest index attaining the maximum. -/
noncomputable def argmaxF {N : ℕ} [NeZero N] (v : Fin N → ℝ) : Fin N :=
  if h : (Finset.univ.filter fun i => ∀ j, v j ≤ v i).Nonempty then
    (Finset.univ.filter fun i => ∀ j, v j ≤ v i).min' h
  else 0

open Classical in
/-- Embedding of `Categorical.forward` (src/actor.py:22-23):
`torch.multinomial(p, 1)` modelled as the inverse-CDF sampler: the smallest
index whose cumulative probability exceeds the uniform draw `u` (falling back
to the last index if `u` exceeds the total mass). -/
noncomputable def sampleCat {N : ℕ} [NeZero N] (pr : Fin N → ℝ) (u : ℝ) : Fin N :=
  if h : (Finset.univ.filter fun i =>
      u < ∑ j ∈ Finset.univ.filter (· ≤ i), pr j).Nonempty then
    (Finset.univ.filter fun i => u < ∑ j ∈ Finset.univ.filter (· ≤ i), pr j).min' h
  else ⟨N - 1, Nat.sub_lt (Nat.pos_of_ne_zero (NeZero.ne N)) Nat.one_pos⟩

/-- City selection (`self.city_selecter(log_p)` at src/actor.py:89). -/
noncomputable def nextCity {N : ℕ} [NeZero N] (pol : DecodePolicy) (lp : Fin N → ℝ)
    (u : ℝ) : Fin N :=
  match pol with
  | DecodePolicy.greedy => argmaxF lp
  | DecodePolicy.sampling => sampleCat (fun i => Real.exp (lp i)) u

/-- Decoder loop state of `PtrNet1.forward` (one instance): LSTM state,
current decoder input, visit mask, selected cities so far (in reverse), the
recorded per-step log-probability vectors (in reverse), and the remaining
uniform draws for the sampling policy. -/
structure DecSt (N ein hid : ℕ) where
  h : Fin hid → ℝ
  c : Fin hid → ℝ
  inp : Fin ein → ℝ
  mask : Fin N → ℝ
  piRev : List (Fin N)
  lpRev : List (Fin N → ℝ)
  rnd : List ℝ

/-- One iteration of the decoding loop (src/actor.py:82-102): decoder LSTM
step, `n_glimpse` glimpses, pointer logits, log-softmax, city selection,
gather of the selected city's embedding as the next input, and the
`mask += zeros.scatter_(1, next_node, 1)` update (which *adds* one at the
selected index). -/
noncomputable def decodeStep {N ein hid : ℕ} [NeZero N] (p : PtrP ein hid)
    (emb : Fin N → Fin ein → ℝ) (ref : Fin N → Fin hid → ℝ) (pol : DecodePolicy)
    (s : DecSt N ein hid) : DecSt N ein hid :=
  let hc := lstmCell p.dec s.inp s.h s.c
  let q := (fun qq => glimpse p ref qq s.mask)^[p.nGlimpse] hc.1
  let lp := logSoftmax (pointer p ref q s.mask)
  let next := nextCity pol lp (s.rnd.headD 0)
  { h := hc.1, c := hc.2, inp := emb next,
    mask := fun i => s.mask i + (if i = next then 1 else 0),
    piRev := next :: s.piRev,
    lpRev := lp :: s.lpRev,
    rnd := s.rnd.tail }

/-- A 2D coordinate as a `Fin 2`-indexed vector. -/
noncomputable def coordVec (pt : Pt) : Fin 2 → ℝ := fun i => if i = 0 then pt.1 else pt.2

/-- Per-city embeddings (`self.Embedding(x)` at src/actor.py:73). -/
noncomputable def embMap {ein hid N : ℕ} (p : PtrP ein hid) (coords : Fin N → Pt) :
    Fin N → Fin ein → ℝ :=
  fun city => mulVec p.emb (coordVec (coords city))

/-- Encoder pass over the embedded sequence from the zero initial state
(PyTorch initializes `None` hidden state to zeros). -/
noncomputable def encOut {ein hid N : ℕ} (p : PtrP ein hid) (coords : Fin N → Pt) :
    List (Fin hid → ℝ) × ((Fin hid → ℝ) × (Fin hid → ℝ)) :=
  runLSTM p.enc ((List.finRange N).map (embMap p coords)) (fun _ => 0) (fun _ => 0)

/-- The per-city encoder memory (`ref = enc_h` at src/actor.py:77). -/
noncomputable def refMap {ein hid N : ℕ} (p : PtrP ein hid) (coords : Fin N → Pt) :
    Fin N → Fin hid → ℝ :=
  fun city => (encOut p coords).1.getD city.val (fun _ => 0)

/-- Initial decoder state of `PtrNet1.forward`: encoder final `(h, c)`, the
learned `dec_input` parameter, an all-zero mask, and the supplied stream of
uniform draws. -/
noncomputable def initSt {ein hid N : ℕ} (p : PtrP ein hid) (coords : Fin N → Pt)
    (rnd : List ℝ) : DecSt N ein hid :=
  { h := (encOut p coords).2.1, c := (encOut p coords).2.2, inp := p.decInput0,
    mask := fun _ => 0, piRev := [], lpRev := [], rnd := rnd }

/-- Decoder state after `t` iterations of the loop of `PtrNet1.forward`. -/
noncomputable def ptrNetDecode {ein hid N : ℕ} [NeZero N] (p : PtrP ein hid)
    (coords : Fin N → Pt) (pol : DecodePolicy) (rnd : List ℝ) (t : ℕ) :
    DecSt N ein hid :=
  (decodeStep p (embMap p coords) (refMap p coords) pol)^[t] (initSt p coords rnd)

/-- Embedding of `PtrNet1.forward` (src/actor.py:62-106) for one instance:
run the decoding loop `city_t` times, return the tour `pi` and the
log-likelihood `ll = Σ_t log_p_t[pi_t]` (`get_log_likelihood`,
src/actor.py:165-176). -/
noncomputable def ptrNetForward {ein hid N : ℕ} [NeZero N] (p : PtrP ein hid)
    (coords : Fin N → Pt) (pol : DecodePolicy) (rnd : List ℝ) :
    List (Fin N) × ℝ :=
  let final := ptrNetDecode p coords pol rnd N
  let pi := final.piRev.reverse
  let lps := final.lpRev.reverse
  (pi, ∑ t ∈ Finset.range N, (lps.getD t fun _ => 0) (pi.getD t 0))

/-- All-zero LSTM cell parameters. -/
noncomputable def zeroLSTMP (ein hid : ℕ) : LSTMCellP ein hid :=
  { wi := fun _ _ => 0, wf := fun _ _ => 0, wg := fun _ _ => 0, wo := fun _ _ => 0,
    ui := fun _ _ => 0, uf := fun _ _ => 0, ug := fun _ _ => 0, uo := fun _ _ => 0,
    bi := fun _ => 0, bf := fun _ => 0, bg := fun _ => 0, bo := fun _ => 0 }

/-- All-zero `PtrNet1` parameter assignment with `embed = hidden = 1`,
`clip_logits = 10`, `softmax_T = 1`, `n_glimpse = 1` (a legal configuration:
every weight within the `uniform_(init_min, init_max)` range for
`init_min ≤ 0 ≤ init_max`). -/
noncomputable def zeroPtrP : PtrP 1 1 :=
  { emb := fun _ _ => 0, enc := zeroLSTMP 1 1, dec := zeroLSTMP 1 1,
    vec := fun _ => 0, vec2 := fun _ => 0,
    wq := fun _ _ => 0, bq := fun _ => 0, wref := fun _ _ => 0, bref := fun _ => 0,
    wq2 := fun _ _ => 0, bq2 := fun _ => 0, wref2 := fun _ _ => 0, bref2 := fun _ => 0,
    decInput0 := fun _ => 0, clip := 10, softT := 1, nGlimpse := 1 }

/-- Parameter assignment used to separate the two readings of the clip
constant in claim C4: `Vec2 = (1)`, `W_q2 = 0` with bias `1`, `W_ref2 = 0`
with bias `0`, `clip_logits = 2`. -/
noncomputable def clipPtrP : PtrP 1 1 :=
  { emb := fun _ _ => 0, enc := zeroLSTMP 1 1, dec := zeroLSTMP 1 1,
    vec := fun _ => 0, vec2 := fun _ => 1,
    wq := fun _ _ => 0, bq := fun _ => 0, wref := fun _ _ => 0, bref := fun _ => 0,
    wq2 := fun _ _ => 0, bq2 := fun _ => 1, wref2 := fun _ _ => 0, bref2 := fun _ => 0,
    decInput0 := fun _ => 0, clip := 2, softT := 1, nGlimpse := 1 }

/-- An adversarial uniform draw smaller than the post-mask probability of an
already-visited city: `(1/4)^(10^8)`. -/
noncomputable def qSmall : ℝ := (1 / 4 : ℝ) ^ (100000000 : ℕ)

/-! Structural lemmas about the tour evaluators. -/

/-- Sum of the consecutive (non-wrapping) legs of an index list. -/
noncomputable def chainSum (d : ℕ → ℕ → ℝ) : List ℕ → ℝ
  | [] => 0
  | [_] => 0
  | a :: b :: l => d a b + chainSum d (b :: l)

lemma tourAux_eq_chain (d : ℕ → ℕ → ℝ) (s : ℕ) :
    ∀ (l : List ℕ) (p : ℕ),
      tourAux d s p l = chainSum d (p :: l) + d ((p :: l).getLastD 0) s := by
  intro l
  induction l with
  | nil => intro p; simp [tourAux, chainSum]
  | cons x xs ih =>
    intro p
    simp only [tourAux, chainSum, ih x, List.getLastD_cons]
    ring

lemma chainSum_eq_sum (d : ℕ → ℕ → ℝ) :
    ∀ (l : List ℕ) (a : ℕ),
      chainSum d (a :: l) =
        ∑ i ∈ Finset.range l.length, d ((a :: l).getD i 0) ((a :: l).getD (i + 1) 0) := by
  intro l
  induction l with
  | nil => intro a; simp [chainSum]
  | cons b l' ih =>
    intro a
    rw [List.length_cons, Finset.sum_range_succ']
    simp only [chainSum, ih b]
    rw [add_comm (d a b)]
    congr 1

lemma consecSum_eq_sum :
    ∀ (l : List Pt) (a : Pt),
      consecSum (a :: l) =
        ∑ i ∈ Finset.range l.length,
          get_2city_distance ((a :: l).getD i pt0) ((a :: l).getD (i + 1) pt0) := by
  intro l
  induction l with
  | nil => intro a; simp [consecSum]
  | cons b l' ih =>
    intro a
    rw [List.length_cons, Finset.sum_range_succ']
    simp only [consecSum, ih b]
    rw [add_comm (get_2city_distance a b)]
    congr 1

lemma getLastD_eq_getD {α : Type} : ∀ (l : List α) (a : α), l ≠ [] →
    l.getLastD a = l.getD (l.length - 1) a := by
  intro l
  induction l with
  | nil => intro a h; exact absurd rfl h
  | cons x xs ih =>
    intro a _
    cases xs with
    | nil => rfl
    | cons y ys =>
      have := ih (a := a) (by simp)
      simp only [List.getLastD_cons, List.length_cons] at this ⊢
      simpa using this

lemma getD_map_nodes (nodes : List Pt) (tour : List ℕ) (i : ℕ) (hi : i < tour.length) :
    (tour.map fun t => nodes.getD t pt0).getD i pt0 = nodes.getD (tour.getD i 0) pt0 := by
  rw [List.getD_eq_getElem _ _ (by simpa using hi), List.getD_eq_getElem _ _ hi]
  simp

/-- Loop-shaped cyclic sum over a point list equals the consecutive sum plus
the wrap-around leg from the last point back to the first. -/
lemma loopSum_eq_fast (l : List Pt) (m : ℕ) (hl : l.length = m + 1) :
    ((∑ i ∈ Finset.range m, get_2city_distance (l.getD i pt0) (l.getD (i + 1) pt0)) +
        get_2city_distance (l.getD m pt0) (l.getD 0 pt0)) =
      consecSum l + get_2city_distance (l.getLastD pt0) (l.headD pt0) := by
  cases l with
  | nil => simp at hl
  | cons a t =>
    have ht : t.length = m := by simpa using hl
    subst ht
    rw [consecSum_eq_sum t a]
    have hlast : (a :: t).getLastD pt0 = (a :: t).getD t.length pt0 := by
      rw [getLastD_eq_getD _ _ (by simp)]
      simp
    have hhead : (a :: t).headD pt0 = (a :: t).getD 0 pt0 := rfl
    rw [hlast, hhead]

/-- Per-instance agreement of the two evaluators: on a tour of length
`city_t`, the loop-based `get_tour_distance` and the vectorized gather
computation produce the same real number (exact equality, hence in particular
agreement within any positive tolerance). -/
theorem get_tour_distance_eq_fastLen (cityT : ℕ) (nodes : List Pt) (tour : List ℕ)
    (hlen : tour.length = cityT) :
    get_tour_distance cityT nodes tour = fastLen nodes tour := by
  have hfast : fastLen nodes tour =
      consecSum (tour.map fun t => nodes.getD t pt0) +
        get_2city_distance ((tour.map fun t => nodes.getD t pt0).getLastD pt0)
          ((tour.map fun t => nodes.getD t pt0).headD pt0) := rfl
  cases cityT with
  | zero =>
    have htour : tour = [] := List.length_eq_zero.mp hlen
    subst htour
    simp [get_tour_distance, fastLen, consecSum, get_2city_distance, pt0]
  | succ m =>
    have hgl : (tour.map fun t => nodes.getD t pt0).length = m + 1 := by simp [hlen]
    rw [hfast, get_tour_distance, Finset.sum_range_succ]
    have hsum :
        (∑ i ∈ Finset.range m,
            get_2city_distance (nodes.getD (tour.getD i 0) pt0)
              (nodes.getD (tour.getD ((i + 1) % (m + 1)) 0) pt0)) =
        ∑ i ∈ Finset.range m,
            get_2city_distance ((tour.map fun t => nodes.getD t pt0).getD i pt0)
              ((tour.map fun t => nodes.getD t pt0).getD (i + 1) pt0) := by
      refine Finset.sum_congr rfl fun i hi => ?_
      have him : i < m := Finset.mem_range.mp hi
      rw [Nat.mod_eq_of_lt (by omega)]
      rw [getD_map_nodes nodes tour i (by omega), getD_map_nodes nodes tour (i + 1) (by omega)]
    have hwrap :
        get_2city_distance (nodes.getD (tour.getD m 0) pt0)
            (nodes.getD (tour.getD ((m + 1) % (m + 1)) 0) pt0) =
          get_2city_distance ((tour.map fun t => nodes.getD t pt0).getD m pt0)
            ((tour.map fun t => nodes.getD t pt0).getD 0 pt0) := by
      rw [Nat.mod_self]
      rw [getD_map_nodes nodes tour m (by omega), getD_map_nodes nodes tour 0 (by omega)]
    rw [hsum, hwrap]
    exact loopSum_eq_fast _ m hgl

/-- Successful `mapMOpt` over a list where every element maps to `some`. -/
lemma mapMOpt_eq_map (f : β → Option α) (g : β → α) :
    ∀ l : List β, (∀ b ∈ l, f b = some (g b)) → mapMOpt f l = some (l.map g) := by
  intro l
  induction l with
  | nil => intro _; rfl
  | cons b bs ih =>
    intro h
    have hb := h b (by simp)
    have hbs := ih fun x hx => h x (by simp [hx])
    simp [mapMOpt, hb, hbs]

/-! Properties of the Python tuple minimum and its fold. -/

lemma tmin_eq_or (a b : ℝ × List ℕ) : tmin a b = a ∨ tmin a b = b := by
  unfold tmin
  split_ifs <;> simp

lemma tmin_fst_le_left (a b : ℝ × List ℕ) : (tmin a b).1 ≤ a.1 := by
  unfold tmin
  split_ifs with h1 h2 h3
  · exact le_of_lt h1
  · exact le_refl _
  · exact le_of_not_lt h2
  · exact le_refl _

lemma tmin_fst_le_right (a b : ℝ × List ℕ) : (tmin a b).1 ≤ b.1 := by
  unfold tmin
  split_ifs with h1 h2 h3
  · exact le_refl _
  · exact le_of_lt h2
  · exact le_refl _
  · exact le_of_not_lt h1

lemma foldl_tmin_mem : ∀ (l : List (ℝ × List ℕ)) (c : ℝ × List ℕ),
    List.foldl tmin c l ∈ c :: l := by
  intro l
  induction l with
  | nil => intro c; simp
  | cons x xs ih =>
    intro c
    rw [List.foldl_cons]
    rcases tmin_eq_or c x with he | he <;> rw [he]
    · rcases List.mem_cons.mp (ih c) with h | h
      · simp [h]
      · simp [h]
    · rcases List.mem_cons.mp (ih x) with h | h
      · simp [h]
      · simp [h]

lemma foldl_tmin_fst_le : ∀ (l : List (ℝ × List ℕ)) (c : ℝ × List ℕ),
    ∀ p ∈ c :: l, (List.foldl tmin c l).1 ≤ p.1 := by
  intro l
  induction l with
  | nil =>
    intro c p hp
    rcases List.mem_cons.mp hp with h | h
    · subst h; exact le_refl _
    · simp at h
  | cons x xs ih =>
    intro c p hp
    rw [List.foldl_cons]
    have hc : (List.foldl tmin (tmin c x) xs).1 ≤ (tmin c x).1 :=
      ih (tmin c x) (tmin c x) (by simp)
    rcases List.mem_cons.mp hp with h | h
    · rw [h]
      exact le_trans hc (tmin_fst_le_left c x)
    rcases List.mem_cons.mp h with h' | h'
    · rw [h']
      exact le_trans hc (tmin_fst_le_right c x)
    · exact ih (tmin c x) p (List.mem_cons.mpr (Or.inr h'))

/-! Correctness of the Held-Karp table. -/

lemma toList_perm_cons_erase {S : Finset ℕ} {k : ℕ} (hk : k ∈ S) :
    S.toList.Perm (k :: (S.erase k).toList) := by
  rw [← Multiset.coe_eq_coe, ← Multiset.cons_coe, Finset.coe_toList, Finset.coe_toList]
  rw [Finset.erase_val, Multiset.cons_erase (by simpa using hk)]

/-- Induction characterizing `dpEntryAux`: at state `(j, S)` (with matching
fuel) the table stores a path `j :: L` with `L` a permutation of `S`, its
stored distance is the cost of walking `j → L → 0`, and that distance is
minimal among all orders of visiting `S`. -/
lemma dpEntryAux_spec (d : ℕ → ℕ → ℝ) :
    ∀ (m : ℕ) (j : ℕ) (S : Finset ℕ), S.card = m →
      ∃ L : List ℕ, (dpEntryAux d m j S).2 = j :: L ∧ L.Perm S.toList ∧
        (dpEntryAux d m j S).1 = tourAux d 0 j L ∧
        ∀ M : List ℕ, M.Perm S.toList → (dpEntryAux d m j S).1 ≤ tourAux d 0 j M := by
  intro m
  induction m with
  | zero =>
    intro j S hS
    have hSe : S = ∅ := Finset.card_eq_zero.mp hS
    subst hSe
    refine ⟨[], rfl, by simp, rfl, ?_⟩
    intro M hM
    have hM0 : M.Perm ([] : List ℕ) := by simpa using hM
    have hMnil : M = [] := hM0.eq_nil
    subst hMnil
    simp [dpEntryAux, tourAux]
  | succ m ih =>
    intro j S hS
    set f : ℕ → ℝ × List ℕ := fun k =>
      ((d j k + (dpEntryAux d m k (S.erase k)).1,
        j :: (dpEntryAux d m k (S.erase k)).2) : ℝ × List ℕ) with hf
    have hunfold : dpEntryAux d (m + 1) j S =
        match (S.sort (· ≤ ·)).map f with
        | [] => (d j 0, [j])
        | c :: cs => List.foldl tmin c cs := rfl
    have hsne : S.sort (· ≤ ·) ≠ [] := by
      intro h
      have := Finset.length_sort (α := ℕ) (· ≤ ·) (s := S)
      rw [h] at this
      simp [hS] at this
    cases hsort : S.sort (· ≤ ·) with
    | nil => exact absurd hsort hsne
    | cons s0 rest =>
      rw [hsort] at hunfold
      simp only [List.map_cons] at hunfold
      -- the result is one of the candidates
      have hmem : dpEntryAux d (m + 1) j S ∈ (f s0) :: rest.map f := by
        rw [hunfold]
        exact foldl_tmin_mem _ _
      have hmem' : dpEntryAux d (m + 1) j S ∈ (s0 :: rest).map f := by
        simpa using hmem
    -- extract the witnessing k*
      obtain ⟨k, hkmem, hkeq⟩ := List.mem_map.mp hmem'
      have hkS : k ∈ S := by
        rw [← Finset.mem_sort (· ≤ ·), hsort]
        exact hkmem
      have hcard : (S.erase k).card = m := by
        rw [Finset.card_erase_of_mem hkS, hS]
        omega
      obtain ⟨L', hsnd, hperm, hfst, hmin⟩ := ih k (S.erase k) hcard
      refine ⟨k :: L', ?_, ?_, ?_, ?_⟩
      · rw [← hkeq, hf]
        simp [hsnd]
      · exact (hperm.cons k).trans (toList_perm_cons_erase hkS).symm
      · rw [← hkeq, hf]
        simp only [tourAux, hfst]
      · intro M hM
        have hMne : M ≠ [] := by
          intro h
          subst h
          have := hM.length_eq
          simp [Finset.length_toList, hS] at this
        cases M with
        | nil => exact absurd rfl hMne
        | cons k0 M' =>
          have hk0S : k0 ∈ S := by
            have : k0 ∈ S.toList := hM.mem_iff.mp (by simp)
            simpa [Finset.mem_toList] using this
          have hM' : M'.Perm (S.erase k0).toList := by
            have h1 : (k0 :: M').Perm (k0 :: (S.erase k0).toList) :=
              hM.trans (toList_perm_cons_erase hk0S)
            exact h1.cons_inv
          have hk0sort : k0 ∈ s0 :: rest := by
            rw [← hsort]
            exact (Finset.mem_sort (· ≤ ·)).mpr hk0S
          have hle : (dpEntryAux d (m + 1) j S).1 ≤ (f k0).1 := by
            rw [hunfold]
            exact foldl_tmin_fst_le _ _ _ (by
              rcases List.mem_cons.mp hk0sort with h | h
              · subst h; simp
              · simp [List.mem_map.mpr ⟨k0, h, rfl⟩])
          refine le_trans hle ?_
          have hcard0 : (S.erase k0).card = m := by
            rw [Finset.card_erase_of_mem hk0S, hS]
            omega
          obtain ⟨L0, _, _, hfst0, hmin0⟩ := ih k0 (S.erase k0) hcard0
          simp only [hf, tourAux]
          exact add_le_add_left (hmin0 M' hM') _

/-! Rotation invariance of the cyclic tour length. -/

lemma tourAux_append (d : ℕ → ℕ → ℝ) (s y : ℕ) :
    ∀ (xs : List ℕ) (p : ℕ), tourAux d s p (xs ++ [y]) = tourAux d y p xs + d y s := by
  intro xs
  induction xs with
  | nil => intro p; simp [tourAux]
  | cons x xs' ih =>
    intro p
    show d p x + tourAux d s x (xs' ++ [y]) = d p x + tourAux d y x xs' + d y s
    rw [ih x]
    ring

lemma tourLen_rotate_one (d : ℕ → ℕ → ℝ) (l : List ℕ) :
    tourLen d (l.rotate 1) = tourLen d l := by
  cases l with
  | nil => simp
  | cons a t =>
    rw [List.rotate_cons_succ, List.rotate_zero]
    cases t with
    | nil => simp
    | cons b t' =>
      show tourLen d (b :: (t' ++ [a])) = tourLen d (a :: b :: t')
      show tourAux d b b (t' ++ [a]) = tourAux d a a (b :: t')
      rw [tourAux_append d b a t' b]
      show tourAux d a b t' + d a b = d a b + tourAux d a b t'
      ring

lemma tourLen_rotate (d : ℕ → ℕ → ℝ) (l : List ℕ) :
    ∀ n : ℕ, tourLen d (l.rotate n) = tourLen d l := by
  intro n
  induction n with
  | zero => rw [List.rotate_zero]
  | succ n ih =>
    have : l.rotate (n + 1) = (l.rotate n).rotate 1 := by
      rw [List.rotate_rotate]
    rw [this, tourLen_rotate_one, ih]

/-- Every cyclic tour containing node `0` has the same length as a rotation of
itself that starts at node `0`. -/
lemma exists_zero_headed (d : ℕ → ℕ → ℝ) (M : List ℕ) (h0 : (0 : ℕ) ∈ M) :
    ∃ W : List ℕ, tourLen d M = tourLen d (0 :: W) ∧ (0 :: W).Perm M := by
  obtain ⟨l1, l2, rfl⟩ := List.append_of_mem h0
  refine ⟨l2 ++ l1, ?_, ?_⟩
  · have hrot : (l1 ++ 0 :: l2).rotate l1.length = 0 :: (l2 ++ l1) := by
      rw [List.rotate_eq_drop_append_take (by simp)]
      rw [List.drop_left, List.take_left]
      simp
    rw [← hrot, tourLen_rotate]
  · have hrot : (l1 ++ 0 :: l2).rotate l1.length = 0 :: (l2 ++ l1) := by
      rw [List.rotate_eq_drop_append_take (by simp)]
      rw [List.drop_left, List.take_left]
      simp
    rw [← hrot]
    exact List.rotate_perm _ _

lemma range_perm_cons_S0 (n : ℕ) (hn : 0 < n) :
    (List.range n).Perm (0 :: (S0 n).toList) := by
  have h1 : (List.range n).Perm (Finset.range n).toList := by
    rw [← Multiset.coe_eq_coe, Finset.coe_toList, Finset.range_val, ← Multiset.coe_range]
  exact h1.trans (toList_perm_cons_erase (by simpa using hn))

/-- Full correctness of the Held-Karp search: for `n ≥ 2` it succeeds and
returns a cost `C` and tour `T` such that `T = 0 :: …` is a permutation of
`[0, n)`, `C` is the cyclic length of `T`, and `C` is minimal among the cyclic
lengths of all permutations of `[0, n)`. -/
theorem heldKarp_spec (d : ℕ → ℕ → ℝ) (n : ℕ) (hn : 2 ≤ n) :
    ∃ C T, heldKarp d n = some (C, T) ∧ (∃ T', T = 0 :: T') ∧
      T.Perm (List.range n) ∧ tourLen d T = C ∧
      ∀ M : List ℕ, M.Perm (List.range n) → C ≤ tourLen d M := by
  set g : ℕ → ℝ × List ℕ := fun j =>
    ((d 0 j + (dpEntry d j ((S0 n).erase j)).1,
      0 :: (dpEntry d j ((S0 n).erase j)).2) : ℝ × List ℕ) with hg
  have hunfold : heldKarp d n =
      match ((S0 n).sort (· ≤ ·)).map g with
      | [] => none
      | c :: cs => some (List.foldl tmin c cs) := rfl
  have hone : (1 : ℕ) ∈ S0 n := by
    simp [S0, Finset.mem_erase, Finset.mem_range]
    omega
  have hsne : (S0 n).sort (· ≤ ·) ≠ [] := by
    intro h
    have : (1 : ℕ) ∈ (S0 n).sort (· ≤ ·) := (Finset.mem_sort (· ≤ ·)).mpr hone
    rw [h] at this
    simp at this
  cases hsort : (S0 n).sort (· ≤ ·) with
  | nil => exact absurd hsort hsne
  | cons s0 rest =>
    rw [hsort] at hunfold
    simp only [List.map_cons] at hunfold
    set R : ℝ × List ℕ := List.foldl tmin (g s0) (rest.map g) with hR
    have hmem : R ∈ (g s0) :: rest.map g := foldl_tmin_mem _ _
    have hmem' : R ∈ (s0 :: rest).map g := by simpa using hmem
    obtain ⟨j, hjmem, hjeq⟩ := List.mem_map.mp hmem'
    have hjS : j ∈ S0 n := by
      rw [← Finset.mem_sort (· ≤ ·), hsort]
      exact hjmem
    obtain ⟨L, hsnd, hperm, hfst, hmin⟩ :=
      dpEntryAux_spec d ((S0 n).erase j).card j ((S0 n).erase j) rfl
    have hTperm : (0 :: j :: L).Perm (List.range n) := by
      have h1 : (j :: L).Perm (S0 n).toList :=
        ((hperm.cons j).trans (toList_perm_cons_erase hjS).symm)
      exact ((h1.cons 0).trans (range_perm_cons_S0 n (by omega)).symm)
    refine ⟨R.1, R.2, ?_, ?_, ?_, ?_, ?_⟩
    · rw [hunfold]
    · rw [← hjeq, hg]
      exact ⟨_, rfl⟩
    · rw [← hjeq, hg]
      simp only [dpEntry, hsnd]
      exact hTperm
    · rw [← hjeq, hg]
      simp only [dpEntry, hsnd]
      show tourAux d 0 0 (j :: L) = d 0 j + (dpEntryAux d ((S0 n).erase j).card j ((S0 n).erase j)).1
      rw [hfst]
      simp [tourAux]
    · intro M hM
      have h0M : (0 : ℕ) ∈ M := hM.mem_iff.mpr (by simp [List.mem_range]; omega)
      obtain ⟨W, hWlen, hWperm⟩ := exists_zero_headed d M h0M
      have hWp : W.Perm (S0 n).toList := by
        have h1 : (0 :: W).Perm (0 :: (S0 n).toList) :=
          (hWperm.trans hM).trans (range_perm_cons_S0 n (by omega))
        exact h1.cons_inv
      have hWne : W ≠ [] := by
        intro h
        subst h
        have := hWp.length_eq
        have hcard : (S0 n).card = n - 1 := by
          rw [S0, Finset.card_erase_of_mem (by simp only [Finset.mem_range]; omega),
            Finset.card_range]
        rw [Finset.length_toList, hcard] at this
        simp only [List.length_nil] at this
        omega
      cases W with
      | nil => exact absurd rfl hWne
      | cons k W' =>
        have hkS : k ∈ S0 n := by
          have : k ∈ (S0 n).toList := hWp.mem_iff.mp (by simp)
          simpa [Finset.mem_toList] using this
        have hW' : W'.Perm ((S0 n).erase k).toList := by
          have h1 : (k :: W').Perm (k :: ((S0 n).erase k).toList) :=
            hWp.trans (toList_perm_cons_erase hkS)
          exact h1.cons_inv
        have hksort : k ∈ s0 :: rest := by
          rw [← hsort]
          exact (Finset.mem_sort (· ≤ ·)).mpr hkS
        have hle : R.1 ≤ (g k).1 := by
          rw [hR]
          refine foldl_tmin_fst_le _ _ _ ?_
          rcases List.mem_cons.mp hksort with h | h
          · rw [h]; simp
          · simp [List.mem_map.mpr ⟨k, h, rfl⟩]
        obtain ⟨Lk, _, _, hfstk, hmink⟩ :=
          dpEntryAux_spec d ((S0 n).erase k).card k ((S0 n).erase k) rfl
        rw [hWlen]
        show R.1 ≤ tourAux d 0 0 (k :: W')
        refine le_trans hle ?_
        rw [hg]
        show d 0 k + (dpEntry d k ((S0 n).erase k)).1 ≤ tourAux d 0 0 (k :: W')
        simp only [dpEntry, tourAux]
        exact add_le_add_left (hmink W' hW') _

/-! Bridge between the reference evaluator and the structural tour length. -/

lemma get_tour_distance_eq_tourLen (cityT : ℕ) (nodes : List Pt) (tour : List ℕ)
    (hlen : tour.length = cityT) :
    get_tour_distance cityT nodes tour = tourLen (nodeDist nodes) tour := by
  cases cityT with
  | zero =>
    have htour : tour = [] := List.length_eq_zero.mp hlen
    subst htour
    simp [get_tour_distance, tourLen]
  | succ m =>
    cases tour with
    | nil => simp at hlen
    | cons a l =>
      have hll : l.length = m := by simpa using hlen
      rw [get_tour_distance, Finset.sum_range_succ]
      have hmain :
          (∑ i ∈ Finset.range m,
              get_2city_distance (nodes.getD ((a :: l).getD i 0) pt0)
                (nodes.getD ((a :: l).getD ((i + 1) % (m + 1)) 0) pt0)) =
          chainSum (nodeDist nodes) (a :: l) := by
        rw [chainSum_eq_sum (nodeDist nodes) l a, hll]
        refine Finset.sum_congr rfl fun i hi => ?_
        have him : i < m := Finset.mem_range.mp hi
        rw [Nat.mod_eq_of_lt (by omega)]
        rfl
      have hwrap :
          get_2city_distance (nodes.getD ((a :: l).getD m 0) pt0)
            (nodes.getD ((a :: l).getD ((m + 1) % (m + 1)) 0) pt0) =
          nodeDist nodes ((a :: l).getLastD 0) a := by
        rw [Nat.mod_self, getLastD_eq_getD (a :: l) 0 (by simp)]
        have : (a :: l).length - 1 = m := by simp [hll]
        rw [this]
        rfl
      rw [hmain, hwrap]
      show chainSum (nodeDist nodes) (a :: l) + nodeDist nodes ((a :: l).getLastD 0) a =
        tourAux (nodeDist nodes) a a l
      rw [tourAux_eq_chain (nodeDist nodes) a l a]

/-! Facts about the fold-of-min used in `minTourLen`. -/

lemma foldr_min_le_init (l : List ℝ) (init : ℝ) : l.foldr min init ≤ init := by
  induction l with
  | nil => exact le_refl _
  | cons x xs ih => exact le_trans (min_le_right _ _) ih

lemma foldr_min_le_mem (l : List ℝ) (init : ℝ) : ∀ x ∈ l, l.foldr min init ≤ x := by
  induction l with
  | nil => intro x hx; simp at hx
  | cons y ys ih =>
    intro x hx
    rcases List.mem_cons.mp hx with h | h
    · rw [h]; exact min_le_left _ _
    · exact le_trans (min_le_right _ _) (ih x h)

lemma le_foldr_min (l : List ℝ) (init c : ℝ) (h1 : c ≤ init) (h2 : ∀ x ∈ l, c ≤ x) :
    c ≤ l.foldr min init := by
  induction l with
  | nil => exact h1
  | cons y ys ih =>
    refine le_min (h2 y (by simp)) (ih fun x hx => h2 x (by simp [hx]))

lemma get?_eq_some_getD (l : List (List α)) (i : ℕ) (hi : i < l.length) :
    l.get? i = some (l.getD i []) := by
  rw [List.get?_eq_getElem?, List.getElem?_eq_getElem hi, List.getD_eq_getElem _ _ hi]

lemma mapMOpt_some_length (f : β → Option α) :
    ∀ (l : List β) (r : List α), mapMOpt f l = some r → r.length = l.length := by
  intro l
  induction l with
  | nil =>
    intro r h
    simp only [mapMOpt] at h
    cases h
    rfl
  | cons b bs ih =>
    intro r h
    simp only [mapMOpt] at h
    cases hb : f b with
    | none => rw [hb] at h; exact absurd h (by simp)
    | some a =>
      cases hbs : mapMOpt f bs with
      | none => rw [hb, hbs] at h; exact absurd h (by simp)
      | some r' =>
        rw [hb, hbs] at h
        cases h
        simp [ih r' hbs]

lemma mapMOpt_congr (f g : β → Option α) :
    ∀ l : List β, (∀ b ∈ l, f b = g b) → mapMOpt f l = mapMOpt g l := by
  intro l
  induction l with
  | nil => intro _; rfl
  | cons b bs ih =>
    intro h
    simp only [mapMOpt, h b (by simp), ih fun x hx => h x (by simp [hx])]

lemma mapMOpt_none_of_mem (f : β → Option α) :
    ∀ l : List β, ∀ b ∈ l, f b = none → mapMOpt f l = none := by
  intro l
  induction l with
  | nil => intro b hb; simp at hb
  | cons x xs ih =>
    intro b hb hnone
    rcases List.mem_cons.mp hb with h | h
    · subst h
      simp [mapMOpt, hnone]
    · cases hx : f x with
      | none => simp [mapMOpt, hx]
      | some a => simp [mapMOpt, hx, ih b h hnone]

lemma zipWith_eq_range_map (f : List Pt → List ℕ → ℝ) :
    ∀ (as : List (List Pt)) (bs : List (List ℕ)), as.length = bs.length →
      List.zipWith f as bs =
        (List.range as.length).map fun i => f (as.getD i []) (bs.getD i []) := by
  intro as
  induction as with
  | nil => intro bs _; simp
  | cons a as' ih =>
    intro bs hlen
    cases bs with
    | nil => simp at hlen
    | cons b bs' =>
      have h' : as'.length = bs'.length := by simpa using hlen
      simp only [List.zipWith_cons_cons, List.length_cons, List.range_succ_eq_map,
        List.map_cons, List.map_map]
      refine congrArg₂ _ rfl ?_
      rw [ih bs' h']
      rfl

lemma bind_torchStack_some {o : Option (List α)} {r : List α}
    (h : o.bind torchStack = some r) : o = some r := by
  rcases o with _ | rows
  · exact absurd h (by simp)
  · by_cases he : rows.isEmpty = true
    · exact absurd h (by simp [torchStack, he])
    · have hr : rows = r := by simpa [torchStack, he] using h
      rw [hr]

/-- With a positive batch size covered by both inputs, `stack_l` succeeds and
returns the per-instance loop distances. -/
lemma stack_l_eq_some (batch cityT : ℕ) (inputs : List (List Pt))
    (tours : List (List ℕ)) (hb : 0 < batch) (hI : batch ≤ inputs.length)
    (hT : batch ≤ tours.length) :
    stack_l batch cityT inputs tours =
      some ((List.range batch).map fun i =>
        get_tour_distance cityT (inputs.getD i []) (tours.getD i [])) := by
  have hmap : mapMOpt
      (fun i =>
        match inputs.get? i, tours.get? i with
        | some nd, some tr => some (get_tour_distance cityT nd tr)
        | _, _ => none)
      (List.range batch) =
      some ((List.range batch).map fun i =>
        get_tour_distance cityT (inputs.getD i []) (tours.getD i [])) := by
    apply mapMOpt_eq_map
    intro i hi
    have hi' : i < batch := List.mem_range.mp hi
    rw [get?_eq_some_getD inputs i (by omega), get?_eq_some_getD tours i (by omega)]
  rw [stack_l, hmap]
  simp [torchStack]
  omega

/-- C2: for every valid pair of an instance-coordinate batch and a tour batch
(a positive number of instances — `torch.stack` raises on an empty batch —
with each tour a permutation of `[0, city_t)`), the reference loop evaluator
`stack_l` and the vectorized evaluator `stack_l_fast` return the same
per-instance cyclic tour lengths.  In the real-number model the agreement is
exact equality, which in particular implies agreement within `1e-5` relative
tolerance. -/
theorem stack_l_agrees_with_stack_l_fast (batch cityT : ℕ) (inputs : List (List Pt))
    (tours : List (List ℕ)) (hb : 0 < batch) (hB : inputs.length = batch)
    (hB' : tours.length = batch)
    (hT : ∀ tr ∈ tours, tr.Perm (List.range cityT)) :
    ∃ r, stack_l batch cityT inputs tours = some r ∧ stack_l_fast inputs tours = some r := by
  refine ⟨(List.range batch).map fun i =>
    get_tour_distance cityT (inputs.getD i []) (tours.getD i []), ?_, ?_⟩
  · exact stack_l_eq_some batch cityT inputs tours hb (by omega) (by omega)
  · rw [stack_l_fast, if_pos (hB.trans hB'.symm)]
    rw [zipWith_eq_range_map fastLen inputs tours (hB.trans hB'.symm), hB]
    refine congrArg some (List.map_congr_left fun i hi => ?_)
    have hi' : i < batch := List.mem_range.mp hi
    have hmem : tours.getD i [] ∈ tours := by
      rw [List.getD_eq_getElem _ _ (by omega)]
      exact List.getElem_mem _
    have hlen : (tours.getD i []).length = cityT := by
      simpa using (hT _ hmem).length_eq
    exact (get_tour_distance_eq_fastLen cityT _ _ hlen).symm

/-- Concrete instantiation of `stack_l_agrees_with_stack_l_fast`: a single
2-city instance with tour `[0, 1]`. -/
theorem stack_l_agrees_with_stack_l_fast_witness :
    ∃ r, stack_l 1 2 [[((0 : ℝ), (0 : ℝ)), ((1 : ℝ), (0 : ℝ))]] [[0, 1]] = some r ∧
      stack_l_fast [[((0 : ℝ), (0 : ℝ)), ((1 : ℝ), (0 : ℝ))]] [[0, 1]] = some r :=
  stack_l_agrees_with_stack_l_fast 1 2 _ _ (by norm_num) rfl rfl
    (by
      intro tr htr
      simp only [List.mem_singleton] at htr
      subst htr
      decide)

/-- C10: `stack_l` and `back_tours` iterate over the configured batch size,
not over the input's own batch dimension, while `stack_l_fast` uses the
input's own batch dimension.  Consequently (i) a successful `stack_l` always
returns `cfg.batch` values, (ii) `stack_l_fast` returns as many values as the
input has instances, (iii) extra instances beyond `cfg.batch` are silently
ignored by `stack_l` and by `back_tours` (results only depend on the first
`cfg.batch` instances, and `stack_l` still succeeds whenever `cfg.batch` is
positive), (iv) at `cfg.batch = 0` the final `torch.stack` of an empty list
raises (`none`), and (v) when the input holds fewer than `cfg.batch`
instances the per-instance indexing goes out of range (IndexError, modelled
as `none`). -/
theorem batch_dimension_semantics :
    (∀ (batch cityT : ℕ) (inputs : List (List Pt)) (tours : List (List ℕ)) (r : List ℝ),
        stack_l batch cityT inputs tours = some r → r.length = batch) ∧
    (∀ (inputs : List (List Pt)) (tours : List (List ℕ)) (r : List ℝ),
        stack_l_fast inputs tours = some r → r.length = inputs.length) ∧
    (∀ (batch cityT : ℕ) (inputs : List (List Pt)) (tours : List (List ℕ)),
        batch ≤ inputs.length → batch ≤ tours.length →
          stack_l batch cityT inputs tours =
              stack_l batch cityT (inputs.take batch) (tours.take batch) ∧
            (0 < batch → ∃ r, stack_l batch cityT inputs tours = some r)) ∧
    (∀ (cityT : ℕ) (inputs : List (List Pt)) (tours : List (List ℕ)),
        stack_l 0 cityT inputs tours = none) ∧
    (∀ (batch cityT : ℕ) (inputs : List (List Pt)) (tours : List (List ℕ)),
        inputs.length < batch → stack_l batch cityT inputs tours = none) ∧
    (∀ (batch cityT : ℕ) (tours : List (List ℕ)) (shuf test : List (List Pt)),
        tours.length < batch → back_tours batch cityT tours shuf test = none) ∧
    (∀ (batch cityT : ℕ) (tours : List (List ℕ)) (shuf test : List (List Pt)),
        batch ≤ tours.length → batch ≤ shuf.length → batch ≤ test.length →
          back_tours batch cityT tours shuf test =
            back_tours batch cityT (tours.take batch) (shuf.take batch) (test.take batch)) := by
  have hget_take : ∀ (α : Type) (l : List α) (batch i : ℕ), i < batch →
      (l.take batch).get? i = l.get? i := by
    intro α l batch i hi
    rw [List.get?_eq_getElem?, List.get?_eq_getElem?]
    by_cases hl : i < l.length
    · rw [List.getElem?_take_of_lt hi]
    · rw [List.getElem?_eq_none (show (l.take batch).length ≤ i by
          simp only [List.length_take]; omega),
        List.getElem?_eq_none (show l.length ≤ i by omega)]
  refine ⟨?_, ?_, ?_, ?_, ?_, ?_, ?_⟩
  · intro batch cityT inputs tours r h
    rw [stack_l] at h
    have := mapMOpt_some_length _ _ _ (bind_torchStack_some h)
    simpa using this
  · intro inputs tours r h
    rw [stack_l_fast] at h
    by_cases hlen : inputs.length = tours.length
    · rw [if_pos hlen] at h
      cases h
      simp [hlen]
    · rw [if_neg hlen] at h
      exact absurd h (by simp)
  · intro batch cityT inputs tours hI hT
    constructor
    · rw [stack_l, stack_l]
      refine congrArg (fun o => Option.bind o torchStack)
        (mapMOpt_congr _ _ _ fun i hi => ?_)
      have hi' : i < batch := List.mem_range.mp hi
      rw [hget_take _ inputs batch i hi', hget_take _ tours batch i hi']
    · intro hb
      exact ⟨_, stack_l_eq_some batch cityT inputs tours hb hI hT⟩
  · intro cityT inputs tours
    rw [stack_l, List.range_zero]
    rfl
  · intro batch cityT inputs tours hshort
    have hnone : mapMOpt
        (fun i =>
          match inputs.get? i, tours.get? i with
          | some nd, some tr => some (get_tour_distance cityT nd tr)
          | _, _ => none)
        (List.range batch) = none := by
      apply mapMOpt_none_of_mem _ _ inputs.length (List.mem_range.mpr hshort)
      rw [List.get?_eq_getElem?, List.getElem?_eq_none (le_refl _)]
    rw [stack_l, hnone]
    rfl
  · intro batch cityT tours shuf test hshort
    have hnone : mapMOpt
        (fun i =>
          match tours.get? i, shuf.get? i, test.get? i with
          | some tr, some sh, some te => some (back_tour_one cityT sh te tr)
          | _, _, _ => none)
        (List.range batch) = none := by
      apply mapMOpt_none_of_mem _ _ tours.length (List.mem_range.mpr hshort)
      rw [List.get?_eq_getElem?, List.getElem?_eq_none (le_refl _)]
    rw [back_tours, hnone]
  · intro batch cityT tours shuf test hT hS hTe
    rw [back_tours, back_tours]
    have hcongr : mapMOpt
        (fun i =>
          match tours.get? i, shuf.get? i, test.get? i with
          | some tr, some sh, some te => some (back_tour_one cityT sh te tr)
          | _, _, _ => none)
        (List.range batch) = mapMOpt
        (fun i =>
          match (tours.take batch).get? i, (shuf.take batch).get? i,
              (test.take batch).get? i with
          | some tr, some sh, some te => some (back_tour_one cityT sh te tr)
          | _, _, _ => none)
        (List.range batch) := by
      refine mapMOpt_congr _ _ _ fun i hi => ?_
      have hi' : i < batch := List.mem_range.mp hi
      rw [hget_take _ tours batch i hi', hget_take _ shuf batch i hi',
        hget_take _ test batch i hi']
    rw [hcongr]

/-- Concrete instantiation of `batch_dimension_semantics`: with `cfg.batch = 1`
but two instances supplied, `stack_l` silently ignores the second instance;
with `cfg.batch = 0` the empty `torch.stack` raises; and with `cfg.batch = 2`
but one instance supplied it raises. -/
theorem batch_dimension_semantics_witness :
    (stack_l 1 1 [[((0 : ℝ), (0 : ℝ))], [((1 : ℝ), (1 : ℝ))]] [[0], [0]] =
        stack_l 1 1 [[((0 : ℝ), (0 : ℝ))]] [[0]]) ∧
      stack_l 0 1 [[((0 : ℝ), (0 : ℝ))]] [[0]] = none ∧
      stack_l 2 1 [[((0 : ℝ), (0 : ℝ))]] [[0], [0]] = none := by
  refine ⟨?_, ?_, ?_⟩
  · have h := (batch_dimension_semantics.2.2.1 1 1
      [[((0 : ℝ), (0 : ℝ))], [((1 : ℝ), (1 : ℝ))]] [[0], [0]]
      (by norm_num) (by norm_num)).1
    simpa using h
  · exact batch_dimension_semantics.2.2.2.1 1 [[((0 : ℝ), (0 : ℝ))]] [[0]]
  · exact batch_dimension_semantics.2.2.2.2.1 2 1 [[((0 : ℝ), (0 : ℝ))]] [[0], [0]]
      (by norm_num)

/-- C1: for every instance with `n ≥ 2` cities, `get_optimal_tour` succeeds,
the returned tour is a permutation of `[0, n)`, and its cyclic tour length (as
computed by the reference evaluator `get_tour_distance`) equals the stored
optimal cost, which is the minimum of `get_tour_distance` over all
permutations of `[0, n)`. -/
theorem get_optimal_tour_spec (n : ℕ) (hn : 2 ≤ n) (nodes : List Pt)
    (hlen : nodes.length = n) :
    ∃ C T, heldKarp (nodeDist nodes) n = some (C, T) ∧
      get_optimal_tour nodes = some T ∧
      T.Perm (List.range n) ∧
      get_tour_distance n nodes T = C ∧
      C = minTourLen n nodes := by
  obtain ⟨C, T, hHK, ⟨T', hT0⟩, hTperm, hTlen, hmin⟩ := heldKarp_spec (nodeDist nodes) n hn
  have hTlength : T.length = n := by simpa using hTperm.length_eq
  have hgt : get_tour_distance n nodes T = C := by
    rw [get_tour_distance_eq_tourLen n nodes T hTlength, hTlen]
  have hC_le : ∀ p : List ℕ, p.Perm (List.range n) → C ≤ get_tour_distance n nodes p := by
    intro p hp
    rw [get_tour_distance_eq_tourLen n nodes p (by simpa using hp.length_eq)]
    exact hmin p hp
  refine ⟨C, T, hHK, ?_, hTperm, hgt, ?_⟩
  · rw [get_optimal_tour, hlen, hHK]
    rfl
  · rw [minTourLen]
    apply le_antisymm
    · refine le_foldr_min _ _ _ (hC_le _ (List.Perm.refl _)) ?_
      intro x hx
      obtain ⟨p, hpmem, rfl⟩ := List.mem_map.mp hx
      exact hC_le p (List.mem_permutations.mp hpmem)
    · rw [← hgt]
      exact foldr_min_le_mem _ _ _
        (List.mem_map.mpr ⟨T, List.mem_permutations.mpr hTperm, rfl⟩)

/-- Concrete instantiation of `get_optimal_tour_spec` on a 2-city instance. -/
theorem get_optimal_tour_spec_witness :
    ∃ C T, heldKarp (nodeDist [((0 : ℝ), (0 : ℝ)), ((1 : ℝ), (0 : ℝ))]) 2 = some (C, T) ∧
      get_optimal_tour [((0 : ℝ), (0 : ℝ)), ((1 : ℝ), (0 : ℝ))] = some T ∧
      T.Perm (List.range 2) ∧
      get_tour_distance 2 [((0 : ℝ), (0 : ℝ)), ((1 : ℝ), (0 : ℝ))] T = C ∧
      C = minTourLen 2 [((0 : ℝ), (0 : ℝ)), ((1 : ℝ), (0 : ℝ))] :=
  get_optimal_tour_spec 2 (by norm_num) _ rfl

/-! Concrete evaluation of the exact solver on the 4-city test instance. -/

lemma sqrt_eval {x y : ℝ} (hy : 0 ≤ y) (h : x = y ^ 2) : Real.sqrt x = y := by
  rw [h, Real.sqrt_sq hy]

lemma get_2city_distance_comm (p q : Pt) :
    get_2city_distance p q = get_2city_distance q p := by
  unfold get_2city_distance
  congr 1
  ring

lemma nodeDist_comm (nodes : List Pt) (i j : ℕ) :
    nodeDist nodes i j = nodeDist nodes j i := by
  unfold nodeDist
  exact get_2city_distance_comm _ _

lemma nd01 : nodeDist tspNodes4 0 1 = 1 := by
  show get_2city_distance (tspNodes4.getD 0 pt0) (tspNodes4.getD 1 pt0) = 1
  simp only [tspNodes4, List.getD_cons_zero, List.getD_cons_succ]
  rw [get_2city_distance]
  exact sqrt_eval (by norm_num) (by norm_num)

lemma nd02 : nodeDist tspNodes4 0 2 = 4 := by
  show get_2city_distance (tspNodes4.getD 0 pt0) (tspNodes4.getD 2 pt0) = 4
  simp only [tspNodes4, List.getD_cons_zero, List.getD_cons_succ]
  rw [get_2city_distance]
  exact sqrt_eval (by norm_num) (by norm_num)

lemma nd03 : nodeDist tspNodes4 0 3 = 3 := by
  show get_2city_distance (tspNodes4.getD 0 pt0) (tspNodes4.getD 3 pt0) = 3
  simp only [tspNodes4, List.getD_cons_zero, List.getD_cons_succ]
  rw [get_2city_distance]
  exact sqrt_eval (by norm_num) (by norm_num)

lemma nd12 : nodeDist tspNodes4 1 2 = 3 := by
  show get_2city_distance (tspNodes4.getD 1 pt0) (tspNodes4.getD 2 pt0) = 3
  simp only [tspNodes4, List.getD_cons_zero, List.getD_cons_succ]
  rw [get_2city_distance]
  exact sqrt_eval (by norm_num) (by norm_num)

lemma nd13 : nodeDist tspNodes4 1 3 = Real.sqrt 10 := by
  show get_2city_distance (tspNodes4.getD 1 pt0) (tspNodes4.getD 3 pt0) = Real.sqrt 10
  simp only [tspNodes4, List.getD_cons_zero, List.getD_cons_succ]
  rw [get_2city_distance]
  norm_num

lemma nd23 : nodeDist tspNodes4 2 3 = 5 := by
  show get_2city_distance (tspNodes4.getD 2 pt0) (tspNodes4.getD 3 pt0) = 5
  simp only [tspNodes4, List.getD_cons_zero, List.getD_cons_succ]
  rw [get_2city_distance]
  exact sqrt_eval (by norm_num) (by norm_num)

lemma sqrt10_gt_two : (2 : ℝ) < Real.sqrt 10 := by
  have h4 : Real.sqrt 4 = 2 := sqrt_eval (by norm_num) (by norm_num)
  rw [← h4]
  exact Real.sqrt_lt_sqrt (by norm_num) (by norm_num)

lemma tl0123 : tourLen (nodeDist tspNodes4) [0, 1, 2, 3] = 12 := by
  simp only [tourLen, tourAux]
  rw [nd01, nd12, nd23, nodeDist_comm tspNodes4 3 0, nd03]
  norm_num

lemma tl0321 : tourLen (nodeDist tspNodes4) [0, 3, 2, 1] = 12 := by
  simp only [tourLen, tourAux]
  rw [nd03, nodeDist_comm tspNodes4 3 2, nd23, nodeDist_comm tspNodes4 2 1, nd12,
    nodeDist_comm tspNodes4 1 0, nd01]
  norm_num

lemma tl0132 : tourLen (nodeDist tspNodes4) [0, 1, 3, 2] = 10 + Real.sqrt 10 := by
  simp only [tourLen, tourAux]
  rw [nd01, nd13, nodeDist_comm tspNodes4 3 2, nd23, nodeDist_comm tspNodes4 2 0, nd02]
  ring

lemma tl0213 : tourLen (nodeDist tspNodes4) [0, 2, 1, 3] = 10 + Real.sqrt 10 := by
  simp only [tourLen, tourAux]
  rw [nd02, nodeDist_comm tspNodes4 2 1, nd12, nd13, nodeDist_comm tspNodes4 3 0, nd03]
  ring

lemma tl0231 : tourLen (nodeDist tspNodes4) [0, 2, 3, 1] = 10 + Real.sqrt 10 := by
  simp only [tourLen, tourAux]
  rw [nd02, nd23, nodeDist_comm tspNodes4 3 1, nd13, nodeDist_comm tspNodes4 1 0, nd01]
  ring

lemma tl0312 : tourLen (nodeDist tspNodes4) [0, 3, 1, 2] = 10 + Real.sqrt 10 := by
  simp only [tourLen, tourAux]
  rw [nd03, nodeDist_comm tspNodes4 3 1, nd13, nd12, nodeDist_comm tspNodes4 2 0, nd02]
  ring

lemma tourLen4_cases (a b c : ℕ) (h : ([a, b, c] : List ℕ).Perm [1, 2, 3]) :
    ((([a, b, c] : List ℕ) = [1, 2, 3] ∨ ([a, b, c] : List ℕ) = [3, 2, 1]) ∧
        tourLen (nodeDist tspNodes4) (0 :: [a, b, c]) = 12) ∨
      tourLen (nodeDist tspNodes4) (0 :: [a, b, c]) = 10 + Real.sqrt 10 := by
  have ha : a = 1 ∨ a = 2 ∨ a = 3 := by
    have := h.mem_iff.mp (show a ∈ ([a, b, c] : List ℕ) by simp)
    simpa using this
  have hb : b = 1 ∨ b = 2 ∨ b = 3 := by
    have := h.mem_iff.mp (show b ∈ ([a, b, c] : List ℕ) by simp)
    simpa using this
  have hc : c = 1 ∨ c = 2 ∨ c = 3 := by
    have := h.mem_iff.mp (show c ∈ ([a, b, c] : List ℕ) by simp)
    simpa using this
  have hnd : ([a, b, c] : List ℕ).Nodup := h.nodup_iff.mpr (by decide)
  have hab : a ≠ b := by
    intro hx
    rw [hx] at hnd
    simp at hnd
  have hac : a ≠ c := by
    intro hx
    rw [hx] at hnd
    simp at hnd
  have hbc : b ≠ c := by
    intro hx
    rw [hx] at hnd
    simp at hnd
  rcases ha with rfl | rfl | rfl <;> rcases hb with rfl | rfl | rfl <;>
    rcases hc with rfl | rfl | rfl <;> try (exfalso; omega)
  · exact Or.inl ⟨Or.inl rfl, tl0123⟩
  · exact Or.inr tl0132
  · exact Or.inr tl0213
  · exact Or.inr tl0231
  · exact Or.inr tl0312
  · exact Or.inl ⟨Or.inr rfl, tl0321⟩

/-- C8: on the instance `[(0,0), (1,0), (4,0), (0,-3)]`, the exact solver
returns cost `12` with a tour equal to `[0,1,2,3]` or its reverse
`[0,3,2,1]`; each of the four other tours starting at city `0` has cyclic
length `10 + √10 ≈ 13.1623`, strictly greater than `12`. -/
theorem get_optimal_tour_concrete4 :
    ∃ C T, heldKarp (nodeDist tspNodes4) 4 = some (C, T) ∧
      get_optimal_tour tspNodes4 = some T ∧
      C = 12 ∧ (T = [0, 1, 2, 3] ∨ T = [0, 3, 2, 1]) ∧
      tourLen (nodeDist tspNodes4) [0, 1, 3, 2] = 10 + Real.sqrt 10 ∧
      tourLen (nodeDist tspNodes4) [0, 2, 1, 3] = 10 + Real.sqrt 10 ∧
      tourLen (nodeDist tspNodes4) [0, 2, 3, 1] = 10 + Real.sqrt 10 ∧
      tourLen (nodeDist tspNodes4) [0, 3, 1, 2] = 10 + Real.sqrt 10 ∧
      (12 : ℝ) < 10 + Real.sqrt 10 := by
  have hlt : (12 : ℝ) < 10 + Real.sqrt 10 := by
    have := sqrt10_gt_two
    linarith
  obtain ⟨C, T, hHK, ⟨T', hT0⟩, hTperm, hTlen, hmin⟩ :=
    heldKarp_spec (nodeDist tspNodes4) 4 (by norm_num)
  have hCle : C ≤ 12 := by
    have h := hmin [0, 1, 2, 3] (by decide)
    rw [tl0123] at h
    exact h
  have hT' : T'.Perm [1, 2, 3] := by
    have hr : (List.range 4) = [0, 1, 2, 3] := by decide
    have : (0 :: T').Perm (0 :: [1, 2, 3]) := by
      rw [← hT0]
      exact hTperm.trans (by rw [hr])
    exact this.cons_inv
  have hT'len : T'.length = 3 := by simpa using hT'.length_eq
  obtain ⟨a, b, c, rfl⟩ : ∃ a b c, T' = [a, b, c] := by
    cases T' with
    | nil => simp at hT'len
    | cons a t1 =>
      cases t1 with
      | nil => simp at hT'len
      | cons b t2 =>
        cases t2 with
        | nil => simp at hT'len
        | cons c t3 =>
          cases t3 with
          | nil => exact ⟨a, b, c, rfl⟩
          | cons x t4 => simp at hT'len
  rcases tourLen4_cases a b c hT' with ⟨htwo, h12⟩ | hbig
  · refine ⟨C, T, hHK, ?_, ?_, ?_, tl0132, tl0213, tl0231, tl0312, hlt⟩
    · rw [get_optimal_tour]
      have h4 : tspNodes4.length = 4 := by
        rw [tspNodes4]
        rfl
      rw [h4, hHK]
      rfl
    · rw [← hTlen, hT0, h12]
    · rcases htwo with h | h
      · left; rw [hT0, h]
      · right; rw [hT0, h]
  · exfalso
    rw [hT0, hbig] at hTlen
    rw [← hTlen] at hCle
    linarith

/-- C9 evaluation: on a degenerate instance with a single city, the solver
builds the distance matrix and the base dict, reaches the final `min` over the
(empty) table, and fails there (ValueError from `min()` on an empty sequence,
modelled as `none`); the same happens for the empty instance. -/
theorem get_optimal_tour_degenerate :
    get_optimal_tour [((0 : ℝ), (0 : ℝ))] = none ∧
      get_optimal_tour ([] : List Pt) = none := by
  constructor
  · have h1 : (S0 1).sort (· ≤ ·) = [] := by
      have hS : S0 1 = ∅ := by decide
      rw [hS, Finset.sort_empty]
    rw [get_optimal_tour]
    have hlen : ([((0 : ℝ), (0 : ℝ))] : List Pt).length = 1 := rfl
    rw [hlen]
    have : heldKarp (nodeDist [((0 : ℝ), (0 : ℝ))]) 1 = none := by
      rw [heldKarp.eq_def, h1]
      rfl
    rw [this]
    rfl
  · have h0 : (S0 0).sort (· ≤ ·) = [] := by
      have hS : S0 0 = ∅ := by decide
      rw [hS, Finset.sort_empty]
    rw [get_optimal_tour]
    have : heldKarp (nodeDist ([] : List Pt)) 0 = none := by
      rw [heldKarp.eq_def, h0]
      rfl
    rw [List.length_nil, this]
    rfl

/-! Correctness of the permutation rectifier `back_tours`. -/

lemma getD_range (n j : ℕ) (h : j < n) : (List.range n).getD j 0 = j := by
  rw [List.getD_eq_getElem _ _ (by simpa using h)]
  simp

/-- The inner scan finds the first exact coordinate match: if `xy` occurs in
the row then the scan started at offset `k0` returns `k0 + t` for some
position `t` of the row holding exactly `xy`. -/
lemma firstMatchAux_some (xy : Pt) :
    ∀ (row : List Pt) (k0 : ℕ), xy ∈ row →
      ∃ t, firstMatchAux xy row k0 = some (k0 + t) ∧ t < row.length ∧
        row.getD t pt0 = xy := by
  intro row
  induction row with
  | nil => intro k0 h; simp at h
  | cons a l ih =>
    intro k0 h
    by_cases hax : a = xy
    · refine ⟨0, ?_, by simp, by simpa using hax⟩
      rw [firstMatchAux, if_pos hax]
      simp
    · have hmem : xy ∈ l := by
        rcases List.mem_cons.mp h with h' | h'
        · exact absurd h'.symm hax
        · exact h'
      obtain ⟨t, heq, hlt, hget⟩ := ih (k0 + 1) hmem
      refine ⟨t + 1, ?_, by simpa using hlt, by simpa using hget⟩
      rw [firstMatchAux, if_neg hax, heq]
      congr 1
      omega

/-- A `filterMap` whose function succeeds (with property `P`) on every element
is a full map, position by position. -/
lemma filterMap_all_some (F : ℕ → Option ℕ) (P : ℕ → ℕ → Prop) :
    ∀ l : List ℕ, (∀ x ∈ l, ∃ v, F x = some v ∧ P x v) →
      (l.filterMap F).length = l.length ∧
      ∀ j, j < l.length → P (l.getD j 0) ((l.filterMap F).getD j 0) := by
  intro l
  induction l with
  | nil => intro _; exact ⟨rfl, fun j hj => absurd hj (by simp)⟩
  | cons x xs ih =>
    intro h
    obtain ⟨v, hv, hPv⟩ := h x (by simp)
    obtain ⟨ihlen, ihget⟩ := ih fun y hy => h y (by simp [hy])
    rw [List.filterMap_cons, hv]
    refine ⟨by simp [ihlen], ?_⟩
    intro j hj
    cases j with
    | zero => simpa using hPv
    | succ j' =>
      simp only [List.getD_cons_succ]
      exact ihget j' (by simpa using hj)

/-- Per-instance correctness of the rectifier loop: when every looked-up
coordinate occurs in the canonical row, the produced index list has full
length `city_t` and reading the canonical row at the produced index
reproduces, position by position, the coordinate selected by the shuffled
tour. -/
lemma back_tour_one_spec (cityT : ℕ) (shufRow testRow : List Pt) (tour : List ℕ)
    (hmem : ∀ j, j < cityT → shufRow.getD (tour.getD j 0) pt0 ∈ testRow) :
    (back_tour_one cityT shufRow testRow tour).length = cityT ∧
    ∀ j, j < cityT →
      testRow.getD ((back_tour_one cityT shufRow testRow tour).getD j 0) pt0 =
        shufRow.getD (tour.getD j 0) pt0 := by
  have h := filterMap_all_some
    (fun j => firstMatchAux (shufRow.getD (tour.getD j 0) pt0) testRow 0)
    (fun j v => testRow.getD v pt0 = shufRow.getD (tour.getD j 0) pt0)
    (List.range cityT)
    (by
      intro x hx
      have hx' : x < cityT := List.mem_range.mp hx
      obtain ⟨t, heq, hlt, hget⟩ :=
        firstMatchAux_some (shufRow.getD (tour.getD x 0) pt0) testRow 0 (hmem x hx')
      exact ⟨t, by simpa using heq, hget⟩)
  obtain ⟨hlen, hget⟩ := h
  constructor
  · rw [back_tour_one, hlen]
    simp
  · intro j hj
    rw [back_tour_one]
    have := hget j (by simpa using hj)
    rwa [getD_range cityT j hj] at this

/-- C5: for every batch of instances whose per-instance coordinates are
pairwise distinct, every shuffled copy (each shuffled row a permutation of
the canonical row), and every tour over the shuffled ordering (entries in
`[0, city_t)`), `back_tours` succeeds and returns, for each instance, a
sequence of canonical indices such that reading the canonical coordinates in
that order reproduces, position by position and by exact equality, the
coordinate sequence obtained by reading the shuffled coordinates in the order
of the shuffled tour. -/
theorem back_tours_spec (batch cityT : ℕ) (hb : 0 < batch) (hc : 0 < cityT)
    (tours : List (List ℕ)) (shuf test : List (List Pt))
    (hTl : tours.length = batch) (hSl : shuf.length = batch) (hTel : test.length = batch)
    (hperm : ∀ i, i < batch → ((shuf.getD i []).Perm (test.getD i [])))
    (htest : ∀ i, i < batch → (test.getD i []).length = cityT)
    (hdist : ∀ i, i < batch → (test.getD i []).Nodup)
    (htour : ∀ i, i < batch → ∀ j, j < cityT → (tours.getD i []).getD j 0 < cityT) :
    ∃ R, back_tours batch cityT tours shuf test = some R ∧ R.length = batch ∧
      ∀ i, i < batch → ∀ j, j < cityT →
        (test.getD i []).getD ((R.getD i []).getD j 0) pt0 =
          (shuf.getD i []).getD ((tours.getD i []).getD j 0) pt0 := by
  set g : ℕ → List ℕ := fun i =>
    back_tour_one cityT (shuf.getD i []) (test.getD i []) (tours.getD i []) with hg
  have hshuflen : ∀ i, i < batch → (shuf.getD i []).length = cityT := by
    intro i hi
    rw [(hperm i hi).length_eq]
    exact htest i hi
  have hmem : ∀ i, i < batch → ∀ j, j < cityT →
      (shuf.getD i []).getD ((tours.getD i []).getD j 0) pt0 ∈ (test.getD i []) := by
    intro i hi j hj
    refine (hperm i hi).mem_iff.mp ?_
    rw [List.getD_eq_getElem (shuf.getD i []) pt0
      (show (tours.getD i []).getD j 0 < (shuf.getD i []).length by
        rw [hshuflen i hi]; exact htour i hi j hj)]
    exact List.getElem_mem _
  have hrows : mapMOpt
      (fun i =>
        match tours.get? i, shuf.get? i, test.get? i with
        | some tr, some sh, some te => some (back_tour_one cityT sh te tr)
        | _, _, _ => none)
      (List.range batch) = some ((List.range batch).map g) := by
    apply mapMOpt_eq_map
    intro i hi
    have hi' : i < batch := List.mem_range.mp hi
    rw [get?_eq_some_getD tours i (by omega), get?_eq_some_getD shuf i (by omega),
      get?_eq_some_getD test i (by omega)]
  have hglen : ∀ i, i < batch → (g i).length = cityT := fun i hi =>
    (back_tour_one_spec cityT _ _ _ (hmem i hi)).1
  have hfilter : ((List.range batch).map g).filter
      (fun pt => decide (0 < cityT ∧ pt.length = cityT)) = (List.range batch).map g := by
    apply List.filter_eq_self.mpr
    intro x hx
    obtain ⟨i, hi, rfl⟩ := List.mem_map.mp hx
    have hi' : i < batch := List.mem_range.mp hi
    simp [hc, hglen i hi']
  refine ⟨(List.range batch).map g, ?_, by simp, ?_⟩
  · rw [back_tours, hrows]
    simp only [hfilter]
    rw [if_neg (by
      simp only [List.isEmpty_iff, List.map_eq_nil_iff, List.range_eq_nil]
      omega)]
  · intro i hi j hj
    have hR : ((List.range batch).map g).getD i [] = g i := by
      rw [List.getD_eq_getElem _ _ (by simpa using hi)]
      simp
    rw [hR]
    exact (back_tour_one_spec cityT _ _ _ (hmem i hi)).2 j hj

/-- Concrete instantiation of `back_tours_spec`: one 2-city instance with
swapped shuffle and tour `[0, 1]`. -/
theorem back_tours_spec_witness :
    ∃ R, back_tours 1 2 [[0, 1]] [[((1 : ℝ), (1 : ℝ)), ((0 : ℝ), (0 : ℝ))]]
        [[((0 : ℝ), (0 : ℝ)), ((1 : ℝ), (1 : ℝ))]] = some R ∧ R.length = 1 ∧
      ∀ i, i < 1 → ∀ j, j < 2 →
        (([[((0 : ℝ), (0 : ℝ)), ((1 : ℝ), (1 : ℝ))]].getD i []).getD
            ((R.getD i []).getD j 0) pt0 =
          ([[((1 : ℝ), (1 : ℝ)), ((0 : ℝ), (0 : ℝ))]].getD i []).getD
            (([[0, 1]].getD i []).getD j 0) pt0) := by
  refine back_tours_spec 1 2 (by norm_num) (by norm_num) _ _ _ rfl rfl rfl ?_ ?_ ?_ ?_
  · intro i hi
    have hi0 : i = 0 := by omega
    subst hi0
    exact List.Perm.swap _ _ _
  · intro i hi
    have hi0 : i = 0 := by omega
    subst hi0
    rfl
  · intro i hi
    have hi0 : i = 0 := by omega
    subst hi0
    show (([((0 : ℝ), (0 : ℝ)), ((1 : ℝ), (1 : ℝ))]) : List Pt).Nodup
    have hne : (((0 : ℝ), (0 : ℝ)) : Pt) ≠ ((1 : ℝ), (1 : ℝ)) := by
      intro hcontra
      have := congrArg Prod.fst hcontra
      norm_num at this
    simp [List.nodup_cons, hne]
  · intro i hi j hj
    have hi0 : i = 0 := by omega
    subst hi0
    interval_cases j <;> norm_num

/-! Behaviour of `back_tours` on duplicate coordinates (claim C6). -/

lemma dup_firstMatch_zero :
    firstMatchAux (((0 : ℝ), (0 : ℝ)) : Pt)
      [((0 : ℝ), (0 : ℝ)), ((0 : ℝ), (0 : ℝ)), ((1 : ℝ), (1 : ℝ))] 0 = some 0 := by
  rw [firstMatchAux, if_pos rfl]

lemma dup_firstMatch_two :
    firstMatchAux (((1 : ℝ), (1 : ℝ)) : Pt)
      [((0 : ℝ), (0 : ℝ)), ((0 : ℝ), (0 : ℝ)), ((1 : ℝ), (1 : ℝ))] 0 = some 2 := by
  have hne : (((0 : ℝ), (0 : ℝ)) : Pt) ≠ ((1 : ℝ), (1 : ℝ)) := by
    intro hcontra
    have := congrArg Prod.fst hcontra
    norm_num at this
  rw [firstMatchAux, if_neg hne, firstMatchAux, if_neg hne, firstMatchAux, if_pos rfl]

lemma dup_back_tours_eval :
    back_tours 1 3 [[0, 1, 2]]
        [[((0 : ℝ), (0 : ℝ)), ((0 : ℝ), (0 : ℝ)), ((1 : ℝ), (1 : ℝ))]]
        [[((0 : ℝ), (0 : ℝ)), ((0 : ℝ), (0 : ℝ)), ((1 : ℝ), (1 : ℝ))]] =
      some [[0, 0, 2]] := by
  have hone : back_tour_one 3
      [((0 : ℝ), (0 : ℝ)), ((0 : ℝ), (0 : ℝ)), ((1 : ℝ), (1 : ℝ))]
      [((0 : ℝ), (0 : ℝ)), ((0 : ℝ), (0 : ℝ)), ((1 : ℝ), (1 : ℝ))]
      [0, 1, 2] = [0, 0, 2] := by
    rw [back_tour_one]
    rw [show List.range 3 = [0, 1, 2] from rfl]
    rw [List.filterMap_cons, List.filterMap_cons, List.filterMap_cons, List.filterMap_nil]
    simp only [List.getD_cons_zero, List.getD_cons_succ]
    rw [dup_firstMatch_zero, dup_firstMatch_two]
  have hrows : mapMOpt
      (fun i =>
        match ([[0, 1, 2]] : List (List ℕ)).get? i,
            ([[((0 : ℝ), (0 : ℝ)), ((0 : ℝ), (0 : ℝ)), ((1 : ℝ), (1 : ℝ))]] :
              List (List Pt)).get? i,
            ([[((0 : ℝ), (0 : ℝ)), ((0 : ℝ), (0 : ℝ)), ((1 : ℝ), (1 : ℝ))]] :
              List (List Pt)).get? i with
        | some tr, some sh, some te => some (back_tour_one 3 sh te tr)
        | _, _, _ => none)
      (List.range 1) = some ((List.range 1).map fun _ => ([0, 0, 2] : List ℕ)) := by
    apply mapMOpt_eq_map
    intro b hb
    have hb0 : b = 0 := by
      have := List.mem_range.mp hb
      omega
    subst hb0
    show some (back_tour_one 3
        [((0 : ℝ), (0 : ℝ)), ((0 : ℝ), (0 : ℝ)), ((1 : ℝ), (1 : ℝ))]
        [((0 : ℝ), (0 : ℝ)), ((0 : ℝ), (0 : ℝ)), ((1 : ℝ), (1 : ℝ))]
        [0, 1, 2]) = some [0, 0, 2]
    exact congrArg some hone
  rw [back_tours, hrows]
  rfl

/-- C6 counterexample: fed the 3-city instance `[(0,0), (0,0), (1,1)]` with
duplicate coordinates (identity shuffle, tour `[0,1,2]`), `back_tours`
returns an index result instead of raising an ambiguous-match error. -/
theorem back_tours_duplicate_counterexample :
    back_tours 1 3 [[0, 1, 2]]
        [[((0 : ℝ), (0 : ℝ)), ((0 : ℝ), (0 : ℝ)), ((1 : ℝ), (1 : ℝ))]]
        [[((0 : ℝ), (0 : ℝ)), ((0 : ℝ), (0 : ℝ)), ((1 : ℝ), (1 : ℝ))]] ≠ none := by
  rw [dup_back_tours_eval]
  simp

/-- C6 amended: on duplicate coordinates `back_tours` raises no error; it
silently returns, for each tour position, the first exactly matching
canonical index — here `[[0, 0, 2]]`, which is not even a permutation. -/
theorem back_tours_duplicate_first_match :
    back_tours 1 3 [[0, 1, 2]]
        [[((0 : ℝ), (0 : ℝ)), ((0 : ℝ), (0 : ℝ)), ((1 : ℝ), (1 : ℝ))]]
        [[((0 : ℝ), (0 : ℝ)), ((0 : ℝ), (0 : ℝ)), ((1 : ℝ), (1 : ℝ))]] =
      some [[0, 0, 2]] ∧ ¬ ([0, 0, 2] : List ℕ).Nodup :=
  ⟨dup_back_tours_eval, by decide⟩

/-! Hyperbolic-tangent bounds used for the pointer/decoder claims. -/

lemma tanh_lt_one (x : ℝ) : Real.tanh x < 1 := by
  rw [Real.tanh_eq_sinh_div_cosh, div_lt_one (Real.cosh_pos x)]
  exact Real.sinh_lt_cosh x

lemma neg_one_lt_tanh (x : ℝ) : -1 < Real.tanh x := by
  have h := tanh_lt_one (-x)
  rw [Real.tanh_neg] at h
  linarith

lemma abs_tanh_le_one (x : ℝ) : |Real.tanh x| ≤ 1 :=
  abs_le.mpr ⟨by linarith [neg_one_lt_tanh x], le_of_lt (tanh_lt_one x)⟩

lemma one_lt_two_tanh_one : 1 < 2 * Real.tanh 1 := by
  rw [Real.tanh_eq_sinh_div_cosh]
  have hc := Real.cosh_pos 1
  rw [show (2 : ℝ) * (Real.sinh 1 / Real.cosh 1) = 2 * Real.sinh 1 / Real.cosh 1 by ring]
  rw [lt_div_iff₀ hc]
  rw [Real.cosh_eq, Real.sinh_eq]
  have he := Real.exp_one_gt_d9
  have hp : (0 : ℝ) < Real.exp 1 := Real.exp_pos 1
  have h1 : Real.exp 1 * Real.exp (-1) = 1 := by
    rw [← Real.exp_add]
    norm_num
  nlinarith [he, hp, h1, Real.exp_pos (-1)]

/-! Claim C4: where the clip constant enters the pointer computation. -/

lemma pointer_clip_eval :
    pointer clipPtrP (fun _ _ => (0 : ℝ)) (fun _ => 0) (fun _ => 0) (0 : Fin 1) =
      2 * Real.tanh 1 := by
  simp only [pointer, clipPtrP, mulVec, infC]
  norm_num [Fin.sum_univ_one]

lemma pointer_spec_clip_eval :
    pointerSpecClipInside clipPtrP (fun _ _ => (0 : ℝ)) (fun _ => 0) (fun _ => 0)
      (0 : Fin 1) = Real.tanh 2 := by
  simp only [pointerSpecClipInside, clipPtrP, mulVec, infC]
  norm_num [Fin.sum_univ_one]

/-- C4 counterexample: with `Vec2 = (1)`, `W_q2 = 0`, `b_q2 = 1`, `W_ref2 = 0`,
`b_ref2 = 0` and `clip_logits = 2`, the source's pointer logit is
`2 * tanh(1) > 1` while the claimed formula (clip applied to the
pre-activation sum, before the tanh) gives `tanh(2) < 1`: they differ. -/
theorem pointer_clip_outside_counterexample :
    pointer clipPtrP (fun _ _ => (0 : ℝ)) (fun _ => 0) (fun _ => 0) (0 : Fin 1) ≠
      pointerSpecClipInside clipPtrP (fun _ _ => (0 : ℝ)) (fun _ => 0) (fun _ => 0)
        (0 : Fin 1) := by
  rw [pointer_clip_eval, pointer_spec_clip_eval]
  intro heq
  have h1 := one_lt_two_tanh_one
  have h2 := tanh_lt_one 2
  linarith

/-- C4 amended: in the pointer step the clip constant scales the *output* of
the tanh, not the pre-activation sum: before the mask penalty is subtracted,
the logits equal `clip_logits * (Vec2 · tanh(query_projection(query) +
memory_projection(memory)))`; in particular they are homogeneous of degree
one in the clip constant. -/
theorem pointer_scales_tanh_output {ein hid N : ℕ} (p : PtrP ein hid)
    (ref : Fin N → Fin hid → ℝ) (q : Fin hid → ℝ) (mask : Fin N → ℝ) (city : Fin N) :
    pointer p ref q mask city + infC * mask city =
      p.clip * ∑ k, p.vec2 k *
        Real.tanh ((mulVec p.wq2 q k + p.bq2 k) +
          (mulVec p.wref2 (ref city) k + p.bref2 k)) := by
  simp only [pointer]
  rw [show ∀ x y : ℝ, x - y + y = x from fun x y => by ring]
  rw [Finset.mul_sum]
  exact Finset.sum_congr rfl fun k _ => by ring

/-- Concrete instantiation of `pointer_scales_tanh_output`. -/
theorem pointer_scales_tanh_output_witness :
    pointer clipPtrP (fun _ _ => (0 : ℝ)) (fun _ => 0) (fun _ => 0) (0 : Fin 1) +
        infC * (fun _ : Fin 1 => (0 : ℝ)) (0 : Fin 1) =
      clipPtrP.clip * ∑ k : Fin 1, clipPtrP.vec2 k *
        Real.tanh ((mulVec clipPtrP.wq2 (fun _ => 0) k + clipPtrP.bq2 k) +
          (mulVec clipPtrP.wref2 ((fun _ _ => (0 : ℝ)) (0 : Fin 1)) k +
            clipPtrP.bref2 k)) :=
  pointer_scales_tanh_output clipPtrP (fun _ _ => 0) (fun _ => 0) (fun _ => 0) 0

/-! Greedy decoding under bounded pointer logits (claims C3 and C7). -/

lemma abs_pointer_add_mask_le {ein hid N : ℕ} (p : PtrP ein hid)
    (ref : Fin N → Fin hid → ℝ) (q : Fin hid → ℝ) (mask : Fin N → ℝ) (city : Fin N) :
    |pointer p ref q mask city + infC * mask city| ≤ |p.clip| * ∑ k, |p.vec2 k| := by
  simp only [pointer]
  rw [show ∀ x y : ℝ, x - y + y = x from fun x y => by ring]
  refine le_trans (Finset.abs_sum_le_sum_abs _ _) ?_
  rw [Finset.mul_sum]
  refine Finset.sum_le_sum fun k _ => ?_
  rw [abs_mul, abs_mul]
  calc |p.vec2 k| * (|p.clip| * |Real.tanh _|) ≤ |p.vec2 k| * (|p.clip| * 1) := by
        refine mul_le_mul_of_nonneg_left ?_ (abs_nonneg _)
        exact mul_le_mul_of_nonneg_left (abs_tanh_le_one _) (abs_nonneg _)
    _ = |p.clip| * |p.vec2 k| := by ring

open Classical in
lemma argmaxF_isMax {N : ℕ} [NeZero N] (v : Fin N → ℝ) (j : Fin N) :
    v j ≤ v (argmaxF v) := by
  unfold argmaxF
  have hne : (Finset.univ.filter fun i => ∀ j, v j ≤ v i).Nonempty := by
    obtain ⟨i, -, hi⟩ := Finset.exists_max_image (Finset.univ : Finset (Fin N)) v
      ⟨0, Finset.mem_univ 0⟩
    exact ⟨i, Finset.mem_filter.mpr ⟨Finset.mem_univ i, fun j => hi j (Finset.mem_univ j)⟩⟩
  rw [dif_pos hne]
  have hmem := Finset.min'_mem _ hne
  exact (Finset.mem_filter.mp hmem).2 j

open Classical in
lemma argmaxF_sub_const {N : ℕ} [NeZero N] (v : Fin N → ℝ) (c : ℝ) :
    argmaxF (fun i => v i - c) = argmaxF v := by
  unfold argmaxF
  have hset : (Finset.univ.filter fun i => ∀ j, v j - c ≤ v i - c) =
      (Finset.univ.filter fun i => ∀ j, v j ≤ v i) := by
    refine Finset.filter_congr fun i _ => ?_
    exact forall_congr' fun j => sub_le_sub_iff_right c
  rw [hset]

lemma greedy_unmasked {ein hid N : ℕ} [NeZero N] (p : PtrP ein hid)
    (ref : Fin N → Fin hid → ℝ) (q : Fin hid → ℝ) (mask : Fin N → ℝ)
    (hbound : |p.clip| * ∑ k, |p.vec2 k| < infC / 2)
    (hmask01 : ∀ i, mask i = 0 ∨ mask i = 1)
    (w : Fin N) (hw : mask w = 0) :
    mask (argmaxF (logSoftmax (pointer p ref q mask))) = 0 := by
  have hshift : argmaxF (logSoftmax (pointer p ref q mask)) =
      argmaxF (pointer p ref q mask) :=
    argmaxF_sub_const (pointer p ref q mask) _
  rw [hshift]
  rcases hmask01 (argmaxF (pointer p ref q mask)) with h0 | h1
  · exact h0
  · exfalso
    have hle := argmaxF_isMax (pointer p ref q mask) w
    have hbw := abs_pointer_add_mask_le p ref q mask w
    have hba := abs_pointer_add_mask_le p ref q mask (argmaxF (pointer p ref q mask))
    rw [hw] at hbw
    rw [h1] at hba
    simp only [mul_zero, add_zero, mul_one] at hbw hba
    have hBW := (abs_lt.mp (lt_of_le_of_lt hbw hbound)).1
    have hBA := (abs_lt.mp (lt_of_le_of_lt hba hbound)).2
    have hinf : (0 : ℝ) < infC := by norm_num [infC]
    linarith

lemma nextCity_greedy {N : ℕ} [NeZero N] (lp : Fin N → ℝ) (u : ℝ) :
    nextCity DecodePolicy.greedy lp u = argmaxF lp := rfl

lemma decodeStep_piRev {N ein hid : ℕ} [NeZero N] (p : PtrP ein hid)
    (emb : Fin N → Fin ein → ℝ) (ref : Fin N → Fin hid → ℝ) (pol : DecodePolicy)
    (s : DecSt N ein hid) :
    (decodeStep p emb ref pol s).piRev =
      nextCity pol (logSoftmax (pointer p ref
        ((fun qq => glimpse p ref qq s.mask)^[p.nGlimpse]
          (lstmCell p.dec s.inp s.h s.c).1) s.mask)) (s.rnd.headD 0) :: s.piRev := rfl

lemma decodeStep_mask {N ein hid : ℕ} [NeZero N] (p : PtrP ein hid)
    (emb : Fin N → Fin ein → ℝ) (ref : Fin N → Fin hid → ℝ) (pol : DecodePolicy)
    (s : DecSt N ein hid) (i : Fin N) :
    (decodeStep p emb ref pol s).mask i =
      s.mask i + (if i = nextCity pol (logSoftmax (pointer p ref
        ((fun qq => glimpse p ref qq s.mask)^[p.nGlimpse]
          (lstmCell p.dec s.inp s.h s.c).1) s.mask)) (s.rnd.headD 0) then 1 else 0) := rfl

lemma ptrNetDecode_succ {ein hid N : ℕ} [NeZero N] (p : PtrP ein hid)
    (coords : Fin N → Pt) (pol : DecodePolicy) (rnd : List ℝ) (t : ℕ) :
    ptrNetDecode p coords pol rnd (t + 1) =
      decodeStep p (embMap p coords) (refMap p coords) pol
        (ptrNetDecode p coords pol rnd t) := by
  rw [ptrNetDecode, ptrNetDecode, Function.iterate_succ_apply']

/-- Invariant of greedy decoding with bounded pointer logits: after `t` steps
exactly `t` pairwise-distinct cities have been selected and the mask is the
indicator of the selected set. -/
lemma greedy_invariant {ein hid N : ℕ} [NeZero N] (p : PtrP ein hid)
    (coords : Fin N → Pt) (rnd : List ℝ)
    (hbound : |p.clip| * ∑ k, |p.vec2 k| < infC / 2) :
    ∀ t, t ≤ N →
      (ptrNetDecode p coords DecodePolicy.greedy rnd t).piRev.length = t ∧
      (ptrNetDecode p coords DecodePolicy.greedy rnd t).piRev.Nodup ∧
      ∀ i : Fin N, (ptrNetDecode p coords DecodePolicy.greedy rnd t).mask i =
        if i ∈ (ptrNetDecode p coords DecodePolicy.greedy rnd t).piRev then 1 else 0 := by
  intro t
  induction t with
  | zero =>
    intro _
    refine ⟨rfl, List.nodup_nil, fun i => ?_⟩
    simp [ptrNetDecode, initSt]
  | succ t ih =>
    intro ht
    obtain ⟨hlen, hnodup, hmask⟩ := ih (by omega)
    set s := ptrNetDecode p coords DecodePolicy.greedy rnd t with hs
    set nx := argmaxF (logSoftmax (pointer p (refMap p coords)
      ((fun qq => glimpse p (refMap p coords) qq s.mask)^[p.nGlimpse]
        (lstmCell p.dec s.inp s.h s.c).1) s.mask)) with hnx
    have hpiRev : (ptrNetDecode p coords DecodePolicy.greedy rnd (t + 1)).piRev =
        nx :: s.piRev := by
      rw [ptrNetDecode_succ, decodeStep_piRev, nextCity_greedy]
    have hmaskStep : ∀ i, (ptrNetDecode p coords DecodePolicy.greedy rnd (t + 1)).mask i =
        s.mask i + (if i = nx then 1 else 0) := by
      intro i
      rw [ptrNetDecode_succ, decodeStep_mask, nextCity_greedy]
    have hmask01 : ∀ i, s.mask i = 0 ∨ s.mask i = 1 := by
      intro i
      rw [hmask i]
      by_cases h : i ∈ s.piRev <;> simp [h]
    have hexists : ∃ w : Fin N, s.mask w = 0 := by
      have hcard : s.piRev.toFinset.card = t := by
        rw [List.toFinset_card_of_nodup hnodup, hlen]
      obtain ⟨w, hw⟩ : ∃ w : Fin N, w ∉ s.piRev.toFinset := by
        by_contra hcon
        push_neg at hcon
        have huniv : s.piRev.toFinset = Finset.univ := Finset.eq_univ_iff_forall.mpr hcon
        rw [huniv, Finset.card_univ, Fintype.card_fin] at hcard
        omega
      refine ⟨w, ?_⟩
      rw [hmask w, if_neg (by simpa using hw)]
    obtain ⟨w, hw⟩ := hexists
    have hsel : s.mask nx = 0 := by
      rw [hnx]
      exact greedy_unmasked p (refMap p coords) _ s.mask hbound hmask01 w hw
    have hnotmem : nx ∉ s.piRev := by
      intro hmem
      rw [hmask nx, if_pos hmem] at hsel
      norm_num at hsel
    refine ⟨?_, ?_, ?_⟩
    · rw [hpiRev]
      simp [hlen]
    · rw [hpiRev]
      exact List.nodup_cons.mpr ⟨hnotmem, hnodup⟩
    · intro i
      rw [hmaskStep i, hpiRev]
      by_cases hin : i = nx
      · rw [hin, hmask nx, if_neg hnotmem]
        simp
      · rw [hmask i]
        by_cases hin2 : i ∈ s.piRev <;> simp [hin, hin2, List.mem_cons]

/-- C3 amended: for every `N ≥ 1`, every instance, and every parameter
assignment whose pointer logits are bounded below the mask penalty (it
suffices that `|clip_logits| * ‖Vec2‖₁ < inf / 2 = 5·10⁷`; the pointer logits
are bounded in absolute value by `|clip_logits| * ‖Vec2‖₁` because `|tanh| ≤
1`), the Greedy policy returns a tour that is a permutation of `[0, N)`: no
city index repeats and every index appears exactly once. -/
theorem ptrNet_greedy_permutation {ein hid N : ℕ} [NeZero N] (p : PtrP ein hid)
    (coords : Fin N → Pt) (rnd : List ℝ)
    (hbound : |p.clip| * ∑ k, |p.vec2 k| < infC / 2) :
    (ptrNetForward p coords DecodePolicy.greedy rnd).1.length = N ∧
    (ptrNetForward p coords DecodePolicy.greedy rnd).1.Nodup ∧
    ∀ i : Fin N, i ∈ (ptrNetForward p coords DecodePolicy.greedy rnd).1 := by
  obtain ⟨hlen, hnodup, -⟩ := greedy_invariant p coords rnd hbound N (le_refl N)
  have hpi : (ptrNetForward p coords DecodePolicy.greedy rnd).1 =
      (ptrNetDecode p coords DecodePolicy.greedy rnd N).piRev.reverse := rfl
  rw [hpi]
  refine ⟨by simp [hlen], by simp [hnodup], ?_⟩
  intro i
  rw [List.mem_reverse]
  have hcard : (ptrNetDecode p coords DecodePolicy.greedy rnd N).piRev.toFinset.card = N := by
    rw [List.toFinset_card_of_nodup hnodup, hlen]
  have huniv : (ptrNetDecode p coords DecodePolicy.greedy rnd N).piRev.toFinset =
      Finset.univ :=
    Finset.eq_univ_of_card _ (by rw [hcard, Fintype.card_fin])
  have hmem : i ∈ (ptrNetDecode p coords DecodePolicy.greedy rnd N).piRev.toFinset := by
    rw [huniv]
    exact Finset.mem_univ i
  simpa using hmem

/-- Concrete instantiation of `ptrNet_greedy_permutation`: the all-zero
2-city configuration. -/
theorem ptrNet_greedy_permutation_witness :
    (ptrNetForward zeroPtrP (fun _ : Fin 2 => pt0) DecodePolicy.greedy []).1.length = 2 ∧
    (ptrNetForward zeroPtrP (fun _ : Fin 2 => pt0) DecodePolicy.greedy []).1.Nodup ∧
    ∀ i : Fin 2, i ∈ (ptrNetForward zeroPtrP (fun _ : Fin 2 => pt0)
      DecodePolicy.greedy []).1 :=
  ptrNet_greedy_permutation zeroPtrP (fun _ => pt0) []
    (by
      show |(10 : ℝ)| * (∑ k : Fin 1, |(0 : ℝ)|) < infC / 2
      rw [infC]
      norm_num)

/-- Selection step facts shared by the C7 mask invariants. -/
lemma greedy_step_next {ein hid N : ℕ} [NeZero N] (p : PtrP ein hid)
    (coords : Fin N → Pt) (rnd : List ℝ)
    (hbound : |p.clip| * ∑ k, |p.vec2 k| < infC / 2) (t : ℕ) (ht : t < N) :
    ∃ nx : Fin N,
      (ptrNetDecode p coords DecodePolicy.greedy rnd (t + 1)).piRev =
        nx :: (ptrNetDecode p coords DecodePolicy.greedy rnd t).piRev ∧
      (ptrNetDecode p coords DecodePolicy.greedy rnd t).mask nx = 0 ∧
      ∀ i : Fin N, (ptrNetDecode p coords DecodePolicy.greedy rnd (t + 1)).mask i =
        (ptrNetDecode p coords DecodePolicy.greedy rnd t).mask i +
          (if i = nx then 1 else 0) := by
  obtain ⟨hlen, hnodup, hmask⟩ := greedy_invariant p coords rnd hbound t (by omega)
  set s := ptrNetDecode p coords DecodePolicy.greedy rnd t with hs
  set nx := argmaxF (logSoftmax (pointer p (refMap p coords)
    ((fun qq => glimpse p (refMap p coords) qq s.mask)^[p.nGlimpse]
      (lstmCell p.dec s.inp s.h s.c).1) s.mask)) with hnx
  have hmask01 : ∀ i, s.mask i = 0 ∨ s.mask i = 1 := by
    intro i
    rw [hmask i]
    by_cases h : i ∈ s.piRev <;> simp [h]
  have hexists : ∃ w : Fin N, s.mask w = 0 := by
    have hcard : s.piRev.toFinset.card = t := by
      rw [List.toFinset_card_of_nodup hnodup, hlen]
    obtain ⟨w, hw⟩ : ∃ w : Fin N, w ∉ s.piRev.toFinset := by
      by_contra hcon
      push_neg at hcon
      have huniv : s.piRev.toFinset = Finset.univ := Finset.eq_univ_iff_forall.mpr hcon
      rw [huniv, Finset.card_univ, Fintype.card_fin] at hcard
      omega
    refine ⟨w, ?_⟩
    rw [hmask w, if_neg (by simpa using hw)]
  obtain ⟨w, hw⟩ := hexists
  refine ⟨nx, ?_, ?_, ?_⟩
  · rw [ptrNetDecode_succ, decodeStep_piRev, nextCity_greedy]
  · rw [hnx]
    exact greedy_unmasked p (refMap p coords) _ s.mask hbound hmask01 w hw
  · intro i
    rw [ptrNetDecode_succ, decodeStep_mask, nextCity_greedy]

/-- C7 amended: under Greedy decoding with bounded pointer logits
(`|clip_logits| * ‖Vec2‖₁ < inf / 2`), each instance's mask is boolean at
every step, entries only ever grow, and at each step exactly the newly
selected (previously unvisited) city's entry flips from 0 to 1 while every
other entry is unchanged. -/
theorem ptrNet_greedy_mask_invariants {ein hid N : ℕ} [NeZero N] (p : PtrP ein hid)
    (coords : Fin N → Pt) (rnd : List ℝ)
    (hbound : |p.clip| * ∑ k, |p.vec2 k| < infC / 2) :
    (∀ t, t ≤ N → ∀ i : Fin N,
      (ptrNetDecode p coords DecodePolicy.greedy rnd t).mask i = 0 ∨
      (ptrNetDecode p coords DecodePolicy.greedy rnd t).mask i = 1) ∧
    (∀ t, t < N → ∀ i : Fin N,
      (ptrNetDecode p coords DecodePolicy.greedy rnd t).mask i ≤
      (ptrNetDecode p coords DecodePolicy.greedy rnd (t + 1)).mask i) ∧
    (∀ t, t < N → ∃ nx : Fin N,
      (ptrNetDecode p coords DecodePolicy.greedy rnd (t + 1)).piRev =
        nx :: (ptrNetDecode p coords DecodePolicy.greedy rnd t).piRev ∧
      (ptrNetDecode p coords DecodePolicy.greedy rnd t).mask nx = 0 ∧
      (ptrNetDecode p coords DecodePolicy.greedy rnd (t + 1)).mask nx = 1 ∧
      ∀ i : Fin N, i ≠ nx →
        (ptrNetDecode p coords DecodePolicy.greedy rnd (t + 1)).mask i =
          (ptrNetDecode p coords DecodePolicy.greedy rnd t).mask i) := by
  refine ⟨?_, ?_, ?_⟩
  · intro t ht i
    obtain ⟨-, -, hmask⟩ := greedy_invariant p coords rnd hbound t ht
    rw [hmask i]
    by_cases h : i ∈ (ptrNetDecode p coords DecodePolicy.greedy rnd t).piRev <;> simp [h]
  · intro t ht i
    obtain ⟨nx, -, -, hstep⟩ := greedy_step_next p coords rnd hbound t ht
    rw [hstep i]
    by_cases h : i = nx <;> simp [h]
  · intro t ht
    obtain ⟨nx, hpi, hsel, hstep⟩ := greedy_step_next p coords rnd hbound t ht
    refine ⟨nx, hpi, hsel, ?_, ?_⟩
    · rw [hstep nx, hsel, if_pos rfl]
      norm_num
    · intro i hi
      rw [hstep i, if_neg hi]
      ring

/-- Concrete instantiation of `ptrNet_greedy_mask_invariants`: the all-zero
2-city configuration. -/
theorem ptrNet_greedy_mask_invariants_witness :
    (∀ t, t ≤ 2 → ∀ i : Fin 2,
      (ptrNetDecode zeroPtrP (fun _ : Fin 2 => pt0) DecodePolicy.greedy [] t).mask i = 0 ∨
      (ptrNetDecode zeroPtrP (fun _ : Fin 2 => pt0) DecodePolicy.greedy [] t).mask i = 1) ∧
    (∀ t, t < 2 → ∀ i : Fin 2,
      (ptrNetDecode zeroPtrP (fun _ : Fin 2 => pt0) DecodePolicy.greedy [] t).mask i ≤
      (ptrNetDecode zeroPtrP (fun _ : Fin 2 => pt0) DecodePolicy.greedy [] (t + 1)).mask i) ∧
    (∀ t, t < 2 → ∃ nx : Fin 2,
      (ptrNetDecode zeroPtrP (fun _ : Fin 2 => pt0) DecodePolicy.greedy [] (t + 1)).piRev =
        nx :: (ptrNetDecode zeroPtrP (fun _ : Fin 2 => pt0) DecodePolicy.greedy [] t).piRev ∧
      (ptrNetDecode zeroPtrP (fun _ : Fin 2 => pt0) DecodePolicy.greedy [] t).mask nx = 0 ∧
      (ptrNetDecode zeroPtrP (fun _ : Fin 2 => pt0) DecodePolicy.greedy [] (t + 1)).mask nx = 1 ∧
      ∀ i : Fin 2, i ≠ nx →
        (ptrNetDecode zeroPtrP (fun _ : Fin 2 => pt0) DecodePolicy.greedy [] (t + 1)).mask i =
          (ptrNetDecode zeroPtrP (fun _ : Fin 2 => pt0) DecodePolicy.greedy [] t).mask i) :=
  ptrNet_greedy_mask_invariants zeroPtrP (fun _ => pt0) []
    (by
      show |(10 : ℝ)| * (∑ k : Fin 1, |(0 : ℝ)|) < infC / 2
      rw [infC]
      norm_num)

/-! Sampling-policy counterexamples: with the all-zero parameters the pointer
logits depend only on the mask, and an adversarial uniform draw can select an
already-visited city because its post-mask probability is positive in exact
arithmetic. -/

lemma nextCity_sampling {N : ℕ} [NeZero N] (lp : Fin N → ℝ) (u : ℝ) :
    nextCity DecodePolicy.sampling lp u = sampleCat (fun i => Real.exp (lp i)) u := rfl

lemma decodeStep_rnd {N ein hid : ℕ} [NeZero N] (p : PtrP ein hid)
    (emb : Fin N → Fin ein → ℝ) (ref : Fin N → Fin hid → ℝ) (pol : DecodePolicy)
    (s : DecSt N ein hid) : (decodeStep p emb ref pol s).rnd = s.rnd.tail := rfl

lemma ptrNetDecode_zero {ein hid N : ℕ} [NeZero N] (p : PtrP ein hid)
    (coords : Fin N → Pt) (pol : DecodePolicy) (rnd : List ℝ) :
    ptrNetDecode p coords pol rnd 0 = initSt p coords rnd := rfl

/-- With all-zero `Vec2` the pointer logits are exactly the mask penalties. -/
lemma pointer_zeroP {N : ℕ} (ref : Fin N → Fin 1 → ℝ) (q : Fin 1 → ℝ)
    (mask : Fin N → ℝ) :
    pointer zeroPtrP ref q mask = fun city => -(infC * mask city) := by
  funext city
  simp [pointer, zeroPtrP]

open Classical in
/-- The inverse-CDF sampler picks index 0 whenever the draw is below the
first probability. -/
lemma sampleCat_zero {m : ℕ} (pr : Fin (m + 1) → ℝ) (u : ℝ) (h : u < pr 0) :
    sampleCat pr u = 0 := by
  have hcdf : (∑ j ∈ Finset.univ.filter (· ≤ (0 : Fin (m + 1))), pr j) = pr 0 := by
    have hset : Finset.univ.filter (· ≤ (0 : Fin (m + 1))) = {0} := by
      ext j
      simp [Fin.le_zero_iff]
    rw [hset, Finset.sum_singleton]
  have h0mem : (0 : Fin (m + 1)) ∈ Finset.univ.filter
      (fun i => u < ∑ j ∈ Finset.univ.filter (· ≤ i), pr j) := by
    rw [Finset.mem_filter]
    exact ⟨Finset.mem_univ _, by rw [hcdf]; exact h⟩
  unfold sampleCat
  rw [dif_pos ⟨0, h0mem⟩]
  exact le_antisymm (Finset.min'_le _ _ h0mem) (Fin.zero_le _)

lemma exp_logSoftmax_two (P : Fin 2 → ℝ) :
    Real.exp (logSoftmax P 0) =
      Real.exp (P 0) / (Real.exp (P 0) + Real.exp (P 1)) := by
  simp only [logSoftmax]
  rw [Real.exp_sub, Real.exp_log (by positivity), Fin.sum_univ_two]

/-- For every exponent `M ≥ 6`, the draw `(1/4)^M` is below
`e^(-M) / (e^(-M) + 1)`, since `2 · e^M < 2 · 3^M ≤ 4^M`. -/
lemma qratio_aux (M : ℕ) (hM6 : 6 ≤ M) :
    ((1 : ℝ) / 4) ^ M < Real.exp (-(M : ℝ)) / (Real.exp (-(M : ℝ)) + 1) := by
  have hMR : (6 : ℝ) ≤ (M : ℝ) := by exact_mod_cast hM6
  have hexpM : Real.exp (M : ℝ) = Real.exp 1 ^ M := by
    rw [← Real.exp_nat_mul, mul_one]
  have hexp3 : Real.exp 1 ^ M < 3 ^ M := by
    have h3 : Real.exp 1 < 3 := lt_trans Real.exp_one_lt_d9 (by norm_num)
    have hM0 : M ≠ 0 := by omega
    exact pow_lt_pow_left₀ h3 (le_of_lt (Real.exp_pos 1)) hM0
  have hbern : (2 : ℝ) * 3 ^ M ≤ 4 ^ M := by
    have h43 : (1 : ℝ) + (M : ℝ) * (1 / 3) ≤ (1 + 1 / 3) ^ M :=
      one_add_mul_le_pow (by norm_num) M
    have h2 : (2 : ℝ) ≤ (4 / 3) ^ M := by
      have hMge : (2 : ℝ) ≤ 1 + (M : ℝ) * (1 / 3) := by linarith
      calc (2 : ℝ) ≤ 1 + (M : ℝ) * (1 / 3) := hMge
        _ ≤ (1 + 1 / 3) ^ M := h43
        _ = (4 / 3) ^ M := congrArg (· ^ M) (by norm_num)
    have h3pos : (0 : ℝ) < 3 ^ M := by positivity
    calc (2 : ℝ) * 3 ^ M ≤ (4 / 3) ^ M * 3 ^ M :=
          mul_le_mul_of_nonneg_right h2 (le_of_lt h3pos)
      _ = 4 ^ M := by
          rw [div_pow, div_mul_cancel₀ _ (ne_of_gt h3pos)]
  have hE : Real.exp (-(M : ℝ)) = (Real.exp (M : ℝ))⁻¹ := Real.exp_neg _
  have hexpPos : (0 : ℝ) < Real.exp (M : ℝ) := Real.exp_pos _
  have hA : (2 : ℝ) < Real.exp (-(M : ℝ)) * 4 ^ M := by
    rw [hE, inv_mul_eq_div, lt_div_iff₀ hexpPos]
    calc (2 : ℝ) * Real.exp (M : ℝ) = 2 * Real.exp 1 ^ M := by rw [hexpM]
      _ < 2 * 3 ^ M := by linarith
      _ ≤ 4 ^ M := hbern
  have hq4 : ((1 : ℝ) / 4) ^ M * 4 ^ M = 1 := by
    rw [← mul_pow, show ((1 : ℝ) / 4) * 4 = 1 by norm_num, one_pow]
  have hqpos : (0 : ℝ) < ((1 : ℝ) / 4) ^ M := by positivity
  have hEle1 : Real.exp (-(M : ℝ)) ≤ 1 := by
    rw [show (1 : ℝ) = Real.exp 0 from (Real.exp_zero).symm]
    apply Real.exp_le_exp.mpr
    linarith
  have hEpos : (0 : ℝ) < Real.exp (-(M : ℝ)) := Real.exp_pos _
  rw [lt_div_iff₀ (by linarith)]
  -- q * (E + 1) ≤ 2 * q < E since 2 < E * 4^M and q * 4^M = 1
  have hkey : (2 : ℝ) * ((1 : ℝ) / 4) ^ M < Real.exp (-(M : ℝ)) := by
    have := mul_lt_mul_of_pos_right hA hqpos
    calc (2 : ℝ) * ((1 : ℝ) / 4) ^ M
        < Real.exp (-(M : ℝ)) * 4 ^ M * ((1 : ℝ) / 4) ^ M := by linarith
      _ = Real.exp (-(M : ℝ)) * (((1 : ℝ) / 4) ^ M * 4 ^ M) := by ring
      _ = Real.exp (-(M : ℝ)) := by rw [hq4]; ring
  nlinarith [hqpos, hEle1, hEpos, hkey]

/-- The adversarial draw is below the post-mask probability of a visited
city: `(1/4)^(10^8) < e^(-10^8) / (e^(-10^8) + 1)`. -/
lemma qSmall_lt_ratio :
    qSmall < Real.exp (-infC) / (Real.exp (-infC) + 1) := by
  have h := qratio_aux 100000000 (by norm_num)
  have hinf : infC = ((100000000 : ℕ) : ℝ) := by rw [infC]; norm_num
  rw [qSmall, hinf]
  exact h

/-! Step-by-step evaluation of the zero-parameter sampling run on two cities
with the adversarial draw stream `[0, qSmall]`. -/

lemma zps_next0 :
    nextCity DecodePolicy.sampling
      (logSoftmax (pointer zeroPtrP (refMap zeroPtrP fun _ : Fin 2 => pt0)
        ((fun qq => glimpse zeroPtrP (refMap zeroPtrP fun _ : Fin 2 => pt0) qq
            (initSt zeroPtrP (fun _ : Fin 2 => pt0) [0, qSmall]).mask)^[zeroPtrP.nGlimpse]
          (lstmCell zeroPtrP.dec (initSt zeroPtrP (fun _ : Fin 2 => pt0) [0, qSmall]).inp
            (initSt zeroPtrP (fun _ : Fin 2 => pt0) [0, qSmall]).h
            (initSt zeroPtrP (fun _ : Fin 2 => pt0) [0, qSmall]).c).1)
        (initSt zeroPtrP (fun _ : Fin 2 => pt0) [0, qSmall]).mask))
      ((initSt zeroPtrP (fun _ : Fin 2 => pt0) [0, qSmall]).rnd.headD 0) = 0 := by
  rw [nextCity_sampling]
  exact sampleCat_zero _ _ (Real.exp_pos _)

lemma zps_pi1 :
    (ptrNetDecode zeroPtrP (fun _ : Fin 2 => pt0) DecodePolicy.sampling
      [0, qSmall] 1).piRev = [0] := by
  show (ptrNetDecode zeroPtrP (fun _ : Fin 2 => pt0) DecodePolicy.sampling
    [0, qSmall] (0 + 1)).piRev = [0]
  rw [ptrNetDecode_succ, ptrNetDecode_zero, decodeStep_piRev, zps_next0]
  rfl

lemma zps_mask1 (i : Fin 2) :
    (ptrNetDecode zeroPtrP (fun _ : Fin 2 => pt0) DecodePolicy.sampling
      [0, qSmall] 1).mask i = if i = 0 then 1 else 0 := by
  show (ptrNetDecode zeroPtrP (fun _ : Fin 2 => pt0) DecodePolicy.sampling
    [0, qSmall] (0 + 1)).mask i = if i = 0 then 1 else 0
  rw [ptrNetDecode_succ, ptrNetDecode_zero, decodeStep_mask, zps_next0]
  show 0 + (if i = 0 then (1 : ℝ) else 0) = if i = 0 then 1 else 0
  rw [zero_add]

lemma zps_rnd1 :
    (ptrNetDecode zeroPtrP (fun _ : Fin 2 => pt0) DecodePolicy.sampling
      [0, qSmall] 1).rnd = [qSmall] := by
  show (ptrNetDecode zeroPtrP (fun _ : Fin 2 => pt0) DecodePolicy.sampling
    [0, qSmall] (0 + 1)).rnd = [qSmall]
  rw [ptrNetDecode_succ, ptrNetDecode_zero, decodeStep_rnd]
  rfl

lemma zps_next1 :
    nextCity DecodePolicy.sampling
      (logSoftmax (pointer zeroPtrP (refMap zeroPtrP fun _ : Fin 2 => pt0)
        ((fun qq => glimpse zeroPtrP (refMap zeroPtrP fun _ : Fin 2 => pt0) qq
            (ptrNetDecode zeroPtrP (fun _ : Fin 2 => pt0) DecodePolicy.sampling
              [0, qSmall] 1).mask)^[zeroPtrP.nGlimpse]
          (lstmCell zeroPtrP.dec
            (ptrNetDecode zeroPtrP (fun _ : Fin 2 => pt0) DecodePolicy.sampling
              [0, qSmall] 1).inp
            (ptrNetDecode zeroPtrP (fun _ : Fin 2 => pt0) DecodePolicy.sampling
              [0, qSmall] 1).h
            (ptrNetDecode zeroPtrP (fun _ : Fin 2 => pt0) DecodePolicy.sampling
              [0, qSmall] 1).c).1)
        (ptrNetDecode zeroPtrP (fun _ : Fin 2 => pt0) DecodePolicy.sampling
          [0, qSmall] 1).mask))
      ((ptrNetDecode zeroPtrP (fun _ : Fin 2 => pt0) DecodePolicy.sampling
        [0, qSmall] 1).rnd.headD 0) = 0 := by
  rw [nextCity_sampling]
  apply sampleCat_zero
  rw [zps_rnd1]
  show qSmall < Real.exp (logSoftmax (pointer zeroPtrP _ _ _) 0)
  rw [pointer_zeroP]
  have hmaskfun : (fun city => -(infC *
      (ptrNetDecode zeroPtrP (fun _ : Fin 2 => pt0) DecodePolicy.sampling
        [0, qSmall] 1).mask city)) =
      fun city : Fin 2 => -(infC * if city = 0 then 1 else 0) := by
    funext city
    rw [zps_mask1]
  rw [hmaskfun, exp_logSoftmax_two]
  norm_num
  exact qSmall_lt_ratio

lemma zps_pi2 :
    (ptrNetDecode zeroPtrP (fun _ : Fin 2 => pt0) DecodePolicy.sampling
      [0, qSmall] 2).piRev = [0, 0] := by
  show (ptrNetDecode zeroPtrP (fun _ : Fin 2 => pt0) DecodePolicy.sampling
    [0, qSmall] (1 + 1)).piRev = [0, 0]
  rw [ptrNetDecode_succ, decodeStep_piRev, zps_next1, zps_pi1]

lemma zps_mask2 :
    (ptrNetDecode zeroPtrP (fun _ : Fin 2 => pt0) DecodePolicy.sampling
      [0, qSmall] 2).mask 0 = 2 := by
  show (ptrNetDecode zeroPtrP (fun _ : Fin 2 => pt0) DecodePolicy.sampling
    [0, qSmall] (1 + 1)).mask 0 = 2
  rw [ptrNetDecode_succ, decodeStep_mask, zps_next1, zps_mask1]
  norm_num

/-- C3 counterexample: with the all-zero (legal) parameter assignment on a
2-city instance, the Sampling policy with draw stream `[0, (1/4)^(10^8)]`
returns the tour `[0, 0]` — city 0 is selected twice and city 1 never — so
the decoder does not always return a permutation of `[0, N)`: in exact
arithmetic the masked (visited) city keeps the positive probability
`e^(-10^8) / (e^(-10^8) + 1)` and an adversarial draw below it re-selects
that city. -/
theorem ptrNet_sampling_counterexample :
    (ptrNetForward zeroPtrP (fun _ : Fin 2 => pt0) DecodePolicy.sampling
        [0, qSmall]).1 = [0, 0] ∧
    ¬ ((ptrNetForward zeroPtrP (fun _ : Fin 2 => pt0) DecodePolicy.sampling
          [0, qSmall]).1.Nodup ∧
        ∀ i : Fin 2, i ∈ (ptrNetForward zeroPtrP (fun _ : Fin 2 => pt0)
          DecodePolicy.sampling [0, qSmall]).1) := by
  have hpi : (ptrNetForward zeroPtrP (fun _ : Fin 2 => pt0) DecodePolicy.sampling
      [0, qSmall]).1 = [0, 0] := by
    show (ptrNetDecode zeroPtrP (fun _ : Fin 2 => pt0) DecodePolicy.sampling
      [0, qSmall] 2).piRev.reverse = [0, 0]
    rw [zps_pi2]
    rfl
  refine ⟨hpi, ?_⟩
  intro hcon
  rw [hpi] at hcon
  simpa using hcon.1

/-- C7 counterexample: in the same adversarial zero-parameter sampling run,
after the two decoding steps the mask entry of city 0 equals 2: the
`mask += scatter` update adds 1 on each selection, so on a repeated selection
the mask is no longer a boolean vector (2 is neither 0 nor 1), and the entry
for city 1 never flips at all. -/
theorem ptrNet_sampling_mask_counterexample :
    (ptrNetDecode zeroPtrP (fun _ : Fin 2 => pt0) DecodePolicy.sampling
        [0, qSmall] 2).mask 0 = 2 ∧
    (2 : ℝ) ≠ 0 ∧ (2 : ℝ) ≠ 1 ∧
    (ptrNetDecode zeroPtrP (fun _ : Fin 2 => pt0) DecodePolicy.sampling
        [0, qSmall] 2).mask 1 = 0 := by
  refine ⟨zps_mask2, by norm_num, by norm_num, ?_⟩
  show (ptrNetDecode zeroPtrP (fun _ : Fin 2 => pt0) DecodePolicy.sampling
    [0, qSmall] (1 + 1)).mask 1 = 0
  rw [ptrNetDecode_succ, decodeStep_mask, zps_next1, zps_mask1]
  norm_num

end TSPSpec
